import Mathlib

/-!
# Glob matching of `exp_glob.c`

A shallow embedding of `Exp_StringCaseMatch` and `Exp_StringCaseMatch2`.

* A code point (`Tcl_UniChar`) is a natural number.
* A pointer into a 0-terminated buffer is the list of the code points from the
  cursor up to the end of the buffer; reading the cursor (`*ptr`) gives the
  head of the list and `0`, the terminator, when the list is empty.  The
  subject string is the list of the `strlen` code points between `string` and
  `stop`, and the cell at `stop` holds the terminator.
* `tail`, the scanning pointer of the `*` branch, is kept as the integer
  `tail - string`; it ranges over `-1 .. strlen - 1`.
* The C result `int` is an `Int`, `-1` for a failed match.
* `Tcl_UniCharToLower` belongs to the Tcl library, not to `exp_glob.c`; it is
  a parameter of every function that folds case.
* Every loop is given by its body, a function of the rest of the loop, and
  is run with a bound on the number of iterations (`fuel`).  The bound each
  caller passes is never exhausted: the loop satisfies the equation
  `loop = body loop` (`cruise_eq`, `starScan_eq`, `classScan_eq`,
  `Exp_StringCaseMatch2Loop_eq`).
-/

namespace ExpGlob

/-- Code under the cursor: `*ptr`, the terminator `0` at the end of the buffer. -/
def peek (ptr : List Nat) : Nat := ptr.headD 0

/-- Line 142: `while (*(++pattern) == '*') {}`, entered with the cursor
already moved past the first star. -/
def skipStars : List Nat → List Nat
  | [] => []
  | c :: rest => if c = 42 then skipStars rest else c :: rest

/-- Lines 186-196, one iteration of the backward cruise
`while ((tail >= string) && (p != *tail) [&& (p != Tcl_UniCharToLower(*tail))]) tail--`;
`loop` is the rest of the cruise. -/
def cruiseBody (Tcl_UniCharToLower : Nat → Nat) (nocase : Bool) (string : List Nat) (p : Nat)
    (loop : Int → Int) (tail : Int) : Int :=
  if 0 ≤ tail ∧ p ≠ string.getD tail.toNat 0 ∧
      (nocase = true → p ≠ Tcl_UniCharToLower (string.getD tail.toNat 0)) then
    loop (tail - 1)
  else tail

/-- The backward cruise cut after `fuel` iterations. -/
def cruiseFuel (Tcl_UniCharToLower : Nat → Nat) (nocase : Bool) (string : List Nat) (p : Nat) :
    Nat → Int → Int
  | 0 => fun tail => tail
  | fuel + 1 =>
    cruiseBody Tcl_UniCharToLower nocase string p
      (cruiseFuel Tcl_UniCharToLower nocase string p fuel)

/-- The backward cruise from `tail`; it leaves within `tail - string + 2`
iterations (`cruise_eq`). -/
def cruise (Tcl_UniCharToLower : Nat → Nat) (nocase : Bool) (string : List Nat) (p : Nat)
    (tail : Int) : Int :=
  cruiseFuel Tcl_UniCharToLower nocase string p ((tail + 1).toNat + 1) tail

/-- Lines 172-215, one iteration of the backward scan for the longest match.
`recurse t` is the recursive call `Exp_StringCaseMatch2(tail, stop, pattern,
nocase)` on the suffix `t` that starts at `tail`; `loop` is the rest of the
scan. -/
def starScanBody (Tcl_UniCharToLower : Nat → Nat) (nocase : Bool) (string : List Nat) (p : Nat)
    (recurse : List Nat → Int) (mtch : Int) (loop : Int → Int) (tail : Int) : Int :=
  let tail1 :=
    if p ≠ 91 ∧ p ≠ 63 ∧ p ≠ 92 then cruise Tcl_UniCharToLower nocase string p tail else tail
  if tail1 ≤ 0 then -1
  else
    let rc := recurse (string.drop tail1.toNat)
    if rc ≠ -1 then mtch + tail1 + rc
    else if tail1 = 0 then -1
    else
      let tail2 := tail1 - 1
      let tail3 := if tail2 < 0 then 0 else tail2
      loop tail3

/-- The backward scan cut after `fuel` iterations. -/
def starScanFuel (Tcl_UniCharToLower : Nat → Nat) (nocase : Bool) (string : List Nat) (p : Nat)
    (recurse : List Nat → Int) (mtch : Int) : Nat → Int → Int
  | 0 => fun _ => -1
  | fuel + 1 =>
    starScanBody Tcl_UniCharToLower nocase string p recurse mtch
      (starScanFuel Tcl_UniCharToLower nocase string p recurse mtch fuel)

/-- The backward scan from `tail`; it leaves within `tail - string + 1`
iterations (`starScan_eq`). -/
def starScan (Tcl_UniCharToLower : Nat → Nat) (nocase : Bool) (string : List Nat) (p : Nat)
    (recurse : List Nat → Int) (mtch : Int) (tail : Int) : Int :=
  starScanFuel Tcl_UniCharToLower nocase string p recurse mtch (tail.toNat + 1) tail

/-- Lines 250-278, one iteration of the member loop of a class.  `none` is
`return -1`, and `some pattern` is the cursor at the `break`; `loop` is the
rest of the member loop. -/
def classScanBody (Tcl_UniCharToLower : Nat → Nat) (nocase : Bool) (ch : Nat)
    (loop : List Nat → Option (List Nat)) (pattern : List Nat) : Option (List Nat) :=
  if peek pattern = 93 ∨ peek pattern = 0 then none
  else
    let startChar := if nocase then Tcl_UniCharToLower (peek pattern) else peek pattern
    if peek pattern.tail = 45 then
      if peek pattern.tail.tail = 0 then none
      else
        let endChar :=
          if nocase then Tcl_UniCharToLower (peek pattern.tail.tail)
          else peek pattern.tail.tail
        if (startChar ≤ ch ∧ ch ≤ endChar) ∨ (endChar ≤ ch ∧ ch ≤ startChar) then
          some pattern.tail.tail.tail
        else loop pattern.tail.tail.tail
    else if startChar = ch then some pattern.tail
    else loop pattern.tail

/-- The member loop of a class cut after `fuel` iterations. -/
def classScanFuel (Tcl_UniCharToLower : Nat → Nat) (nocase : Bool) (ch : Nat) :
    Nat → List Nat → Option (List Nat)
  | 0 => fun _ => none
  | fuel + 1 =>
    classScanBody Tcl_UniCharToLower nocase ch (classScanFuel Tcl_UniCharToLower nocase ch fuel)

/-- The member loop of a class; every iteration moves `pattern` forward, so it
leaves within `length pattern + 1` iterations (`classScan_eq`). -/
def classScan (Tcl_UniCharToLower : Nat → Nat) (nocase : Bool) (ch : Nat)
    (pattern : List Nat) : Option (List Nat) :=
  classScanFuel Tcl_UniCharToLower nocase ch (pattern.length + 1) pattern

/-- Lines 279-286: move the cursor past the closing `]`, or leave it on the
terminator when the class is not closed. -/
def classSkip : List Nat → List Nat
  | [] => []
  | c :: rest => if c = 93 then rest else if c = 0 then c :: rest else classSkip rest

/-- Lines 114-317, one iteration of the `while (1)` loop of
`Exp_StringCaseMatch2`, with the cursors `string` and `pattern` and the count
`match` as its state.  `self string pattern match` stands both for the next
iteration (`continue`, entered with the new state) and for the recursive call
of the `*` branch (entered with `match = 0`). -/
def Exp_StringCaseMatch2Body (Tcl_UniCharToLower : Nat → Nat) (nocase : Bool)
    (self : List Nat → List Nat → Int → Int) (string pattern : List Nat) (mtch : Int) : Int :=
  if peek pattern = 0 then mtch
  else if peek pattern = 36 ∧ peek pattern.tail = 0 then
    if peek string = 0 then mtch else -1
  else if peek pattern = 42 then
    let pattern1 := skipStars pattern.tail
    let p := peek pattern1
    if p = 0 then (string.length : Int) + mtch
    else
      let p1 := if nocase then Tcl_UniCharToLower p else p
      starScan Tcl_UniCharToLower nocase string p1 (fun tail => self tail pattern1 0)
        mtch ((string.length : Int) - 1)
  else if peek string = 0 then -1
  else if peek pattern = 63 then self string.tail pattern.tail (mtch + 1)
  else if peek pattern = 91 then
    match classScan Tcl_UniCharToLower nocase (peek string) pattern.tail with
    | none => -1
    | some pattern1 => self string.tail (classSkip pattern1) (mtch + 1)
  else
    let pattern1 := if peek pattern = 92 then pattern.tail else pattern
    if peek pattern = 92 ∧ peek pattern1 = 0 then -1
    else
      let ch1 := peek string
      let ch2 := peek pattern1
      if (if nocase then Tcl_UniCharToLower ch1 ≠ Tcl_UniCharToLower ch2 else ch1 ≠ ch2) then -1
      else self string.tail pattern1.tail (mtch + 1)

/-- The loop of `Exp_StringCaseMatch2` cut after `fuel` iterations and nested
calls. -/
def Exp_StringCaseMatch2Fuel (Tcl_UniCharToLower : Nat → Nat) (nocase : Bool) :
    Nat → List Nat → List Nat → Int → Int
  | 0 => fun _ _ _ => -1
  | fuel + 1 =>
    Exp_StringCaseMatch2Body Tcl_UniCharToLower nocase
      (Exp_StringCaseMatch2Fuel Tcl_UniCharToLower nocase fuel)

/-- The `while (1)` loop of `Exp_StringCaseMatch2` entered with the count
`match`; every iteration and every nested call works on a shorter pattern, so
`length pattern + 1` of them are enough (`Exp_StringCaseMatch2Loop_eq`). -/
def Exp_StringCaseMatch2Loop (Tcl_UniCharToLower : Nat → Nat) (nocase : Bool)
    (string pattern : List Nat) (mtch : Int) : Int :=
  Exp_StringCaseMatch2Fuel Tcl_UniCharToLower nocase (pattern.length + 1) string pattern mtch

/-- `Exp_StringCaseMatch2(string, stop, pattern, nocase)`: the number of code
points matched from the start of `string`, or `-1`. -/
def Exp_StringCaseMatch2 (Tcl_UniCharToLower : Nat → Nat) (string pattern : List Nat)
    (nocase : Bool) : Int :=
  Exp_StringCaseMatch2Loop Tcl_UniCharToLower nocase string pattern 0

/-- Lines 82-88: `for (; s < stop; s++)`; `s` is the suffix under the cursor
and `off` is `s - string`.  The result is the returned count and `*offset`. -/
def searchFrom (Tcl_UniCharToLower : Nat → Nat) (nocase : Bool) (pattern : List Nat) (sm : Int) :
    List Nat → Nat → Int × Nat
  | [], _ => (-1, 0)
  | c :: s, off =>
    let ssm := Exp_StringCaseMatch2 Tcl_UniCharToLower (c :: s) pattern nocase
    if ssm ≠ -1 then (ssm + sm, off)
    else searchFrom Tcl_UniCharToLower nocase pattern sm s (off + 1)

/-- `Exp_StringCaseMatch(string, strlen, pattern, nocase, offset)`, `string`
being the `strlen` code points of the subject: the returned count (or `-1`)
paired with the value left in `*offset`. -/
def Exp_StringCaseMatch (Tcl_UniCharToLower : Nat → Nat) (string pattern : List Nat)
    (nocase : Bool) : Int × Nat :=
  let caret := decide (peek pattern = 94)
  let star := !caret && decide (peek pattern = 42)
  let pattern1 := if caret then pattern.tail else pattern
  let sm := Exp_StringCaseMatch2 Tcl_UniCharToLower string pattern1 nocase
  if sm ≥ 0 then (sm, 0)
  else if caret then (-1, 0)
  else if star then (-1, 0)
  else if peek string = 0 then (-1, 0)
  else searchFrom Tcl_UniCharToLower nocase pattern1 0 string.tail 1

/-- A sample case folding for the worked examples: ASCII `A-Z` to `a-z`. -/
def asciiLower (c : Nat) : Nat := if 65 ≤ c ∧ c ≤ 90 then c + 32 else c

/-- The code points of a Lean string. -/
def cp (s : String) : List Nat := s.toList.map Char.toNat

/-- Lines 309-315: the comparison of a string character with a pattern
character fails. -/
def mismatch (Tcl_UniCharToLower : Nat → Nat) (nocase : Bool) (ch1 ch2 : Nat) : Prop :=
  if nocase then Tcl_UniCharToLower ch1 ≠ Tcl_UniCharToLower ch2 else ch1 ≠ ch2

instance (lw : Nat → Nat) (nocase : Bool) (ch1 ch2 : Nat) :
    Decidable (mismatch lw nocase ch1 ch2) := by
  unfold mismatch; infer_instance

/-- An ordinary pattern character: none of `*` `?` `[` `\` `$` `^` and not
the terminator 0. -/
def ordinary (x : Nat) : Prop :=
  x ≠ 0 ∧ x ≠ 42 ∧ x ≠ 63 ∧ x ≠ 91 ∧ x ≠ 92 ∧ x ≠ 36 ∧ x ≠ 94

instance : DecidablePred ordinary := fun x => by
  unfold ordinary; infer_instance

/-- The pattern `p` occurs in `s` as a contiguous substring at index `k`. -/
def occursAt (p s : List Nat) (k : Nat) : Prop := (s.drop k).take p.length = p

instance (p s : List Nat) (k : Nat) : Decidable (occursAt p s k) := by
  unfold occursAt; infer_instance

/-- The members of a class body that runs to the end of the pattern, read as
the specification describes them (section 4.2, `[`): pairs of a start
character and an optional `-` with an end character.  A plain member `x` is
the pair `(x, x)`; a range cut off by the end of the pattern is no member. -/
def classMembers : List Nat → List (Nat × Nat)
  | [] => []
  | [a] => [(a, a)]
  | a :: d :: rest =>
    if d = 45 then
      match rest with
      | [] => []
      | b :: rest2 => (a, b) :: classMembers rest2
    else (a, a) :: classMembers (d :: rest)

/-- A member of the class body accepts the code point `ch`: `ch` lies between
the bounds in either direction.  As in lines 248-268 the bounds are case-folded
when requested and the string character is taken as it is. -/
def classAccepts (Tcl_UniCharToLower : Nat → Nat) (nocase : Bool) (ch : Nat)
    (body : List Nat) : Bool :=
  (classMembers body).any fun ab =>
    let a := if nocase then Tcl_UniCharToLower ab.1 else ab.1
    let b := if nocase then Tcl_UniCharToLower ab.2 else ab.2
    decide ((a ≤ ch ∧ ch ≤ b) ∨ (b ≤ ch ∧ ch ≤ a))

/-- The result `r` of a match that follows `k` code points already matched:
a failure stays a failure, a count grows by `k`. -/
def addMatched (k r : Int) : Int := if r = -1 then -1 else k + r

/-- The backward cruise passes over the position `t` of `string`: the
character `p` that follows the star is none of `[`, `?`, `\`, and the code
point at `t` differs from `p`, also after folding when the case is folded
(lines 185-197). -/
def cruiseSkips (Tcl_UniCharToLower : Nat → Nat) (nocase : Bool) (string : List Nat) (p : Nat)
    (t : Nat) : Prop :=
  (p ≠ 91 ∧ p ≠ 63 ∧ p ≠ 92) ∧ p ≠ string.getD t 0 ∧
    (nocase = true → p ≠ Tcl_UniCharToLower (string.getD t 0))

/-- The full leftmost scan that the specification compares with (section 4.1,
step 4): `Exp_StringCaseMatch` without the early exit for a leading `*`, so
that every start offset is tried also for such a pattern. -/
def fullLeftmostScan (Tcl_UniCharToLower : Nat → Nat) (string pattern : List Nat)
    (nocase : Bool) : Int × Nat :=
  let caret := decide (peek pattern = 94)
  let pattern1 := if caret then pattern.tail else pattern
  let sm := Exp_StringCaseMatch2 Tcl_UniCharToLower string pattern1 nocase
  if sm ≥ 0 then (sm, 0)
  else if caret then (-1, 0)
  else if peek string = 0 then (-1, 0)
  else searchFrom Tcl_UniCharToLower nocase pattern1 0 string.tail 1

/-- Lines 114-317 once more, with the two uses of `self` in
`Exp_StringCaseMatch2Body` told apart: `next` is the next iteration of the
`while (1)` loop and `call` is the recursive call of the `*` branch
(line 202). -/
def Exp_StringCaseMatch2Body2 (Tcl_UniCharToLower : Nat → Nat) (nocase : Bool)
    (next call : List Nat → List Nat → Int → Int) (string pattern : List Nat) (mtch : Int) :
    Int :=
  if peek pattern = 0 then mtch
  else if peek pattern = 36 ∧ peek pattern.tail = 0 then
    if peek string = 0 then mtch else -1
  else if peek pattern = 42 then
    let pattern1 := skipStars pattern.tail
    let p := peek pattern1
    if p = 0 then (string.length : Int) + mtch
    else
      let p1 := if nocase then Tcl_UniCharToLower p else p
      starScan Tcl_UniCharToLower nocase string p1 (fun tail => call tail pattern1 0)
        mtch ((string.length : Int) - 1)
  else if peek string = 0 then -1
  else if peek pattern = 63 then next string.tail pattern.tail (mtch + 1)
  else if peek pattern = 91 then
    match classScan Tcl_UniCharToLower nocase (peek string) pattern.tail with
    | none => -1
    | some pattern1 => next string.tail (classSkip pattern1) (mtch + 1)
  else
    let pattern1 := if peek pattern = 92 then pattern.tail else pattern
    if peek pattern = 92 ∧ peek pattern1 = 0 then -1
    else
      let ch1 := peek string
      let ch2 := peek pattern1
      if (if nocase then Tcl_UniCharToLower ch1 ≠ Tcl_UniCharToLower ch2 else ch1 ≠ ch2) then -1
      else next string.tail pattern1.tail (mtch + 1)

/-- The loop of `Exp_StringCaseMatch2` run with two budgets: `fuel` bounds the
iterations and nested calls in a row, and `depth` bounds the nesting of the
recursive calls of the `*` branch.  `beyond` is what a run that exhausts a
budget would go on with. -/
def Exp_StringCaseMatch2Depth (Tcl_UniCharToLower : Nat → Nat) (nocase : Bool)
    (beyond : List Nat → List Nat → Int → Int) :
    Nat → Nat → List Nat → List Nat → Int → Int
  | 0, _ => beyond
  | fuel + 1, depth =>
    Exp_StringCaseMatch2Body2 Tcl_UniCharToLower nocase
      (Exp_StringCaseMatch2Depth Tcl_UniCharToLower nocase beyond fuel depth)
      (if depth = 0 then beyond
        else Exp_StringCaseMatch2Depth Tcl_UniCharToLower nocase beyond fuel (depth - 1))

/-! ## The loops leave within their bounds -/

theorem cruiseBody_congr (lw : Nat → Nat) (nocase : Bool) (string : List Nat) (p : Nat)
    (f g : Int → Int) (tail : Int) (h : 0 ≤ tail → f (tail - 1) = g (tail - 1)) :
    cruiseBody lw nocase string p f tail = cruiseBody lw nocase string p g tail := by
  unfold cruiseBody
  split
  · rename_i hc; exact h hc.1
  · rfl

theorem cruiseFuel_irrel (lw : Nat → Nat) (nocase : Bool) (string : List Nat) (p : Nat) :
    ∀ (n m : Nat) (tail : Int), (tail + 1).toNat < n → (tail + 1).toNat < m →
      cruiseFuel lw nocase string p n tail = cruiseFuel lw nocase string p m tail := by
  intro n
  induction n with
  | zero => intro m tail hn; omega
  | succ n ih =>
    intro m tail hn hm
    cases m with
    | zero => omega
    | succ m =>
      show cruiseBody lw nocase string p _ tail = cruiseBody lw nocase string p _ tail
      apply cruiseBody_congr
      intro h0
      apply ih <;> omega

/-- The cruise satisfies the equation of the `while` loop. -/
theorem cruise_eq (lw : Nat → Nat) (nocase : Bool) (string : List Nat) (p : Nat) (tail : Int) :
    cruise lw nocase string p tail
      = cruiseBody lw nocase string p (cruise lw nocase string p) tail := by
  show cruiseBody lw nocase string p _ tail = _
  apply cruiseBody_congr
  intro h0
  unfold cruise
  apply cruiseFuel_irrel <;> omega

theorem cruise_le (lw : Nat → Nat) (nocase : Bool) (string : List Nat) (p : Nat) (tail : Int) :
    cruise lw nocase string p tail ≤ tail := by
  generalize hn : (tail + 1).toNat = n
  induction n generalizing tail with
  | zero =>
    rw [cruise_eq, cruiseBody, if_neg]
    intro h; omega
  | succ n ih =>
    rw [cruise_eq, cruiseBody]
    split
    · have := ih (tail - 1) (by omega); omega
    · exact le_refl _

theorem starScanBody_congr (lw : Nat → Nat) (nocase : Bool) (string : List Nat) (p : Nat)
    (recurse : List Nat → Int) (mtch : Int) (f g : Int → Int) (tail : Int)
    (h : ∀ t, 0 ≤ t → t < tail → f t = g t) :
    starScanBody lw nocase string p recurse mtch f tail
      = starScanBody lw nocase string p recurse mtch g tail := by
  have hc := cruise_le lw nocase string p tail
  unfold starScanBody
  simp only
  generalize htail1 :
    (if p ≠ 91 ∧ p ≠ 63 ∧ p ≠ 92 then cruise lw nocase string p tail else tail) = tail1
  have h1 : tail1 ≤ tail := by
    rw [← htail1]; split
    · exact hc
    · exact le_refl _
  split_ifs
  all_goals first
    | rfl
    | (apply h <;> omega)

theorem starScanFuel_irrel (lw : Nat → Nat) (nocase : Bool) (string : List Nat) (p : Nat)
    (recurse : List Nat → Int) (mtch : Int) :
    ∀ (n m : Nat) (tail : Int), tail.toNat < n → tail.toNat < m →
      starScanFuel lw nocase string p recurse mtch n tail
        = starScanFuel lw nocase string p recurse mtch m tail := by
  intro n
  induction n with
  | zero => intro m tail hn; omega
  | succ n ih =>
    intro m tail hn hm
    cases m with
    | zero => omega
    | succ m =>
      show starScanBody lw nocase string p recurse mtch _ tail
        = starScanBody lw nocase string p recurse mtch _ tail
      apply starScanBody_congr
      intro t h0 ht
      apply ih <;> omega

/-- The backward scan satisfies the equation of the `while (1)` loop. -/
theorem starScan_eq (lw : Nat → Nat) (nocase : Bool) (string : List Nat) (p : Nat)
    (recurse : List Nat → Int) (mtch : Int) (tail : Int) :
    starScan lw nocase string p recurse mtch tail
      = starScanBody lw nocase string p recurse mtch
          (starScan lw nocase string p recurse mtch) tail := by
  show starScanBody lw nocase string p recurse mtch _ tail = _
  apply starScanBody_congr
  intro t h0 ht
  unfold starScan
  apply starScanFuel_irrel <;> omega

theorem peek_ne_zero_length {pattern : List Nat} (h : ¬ peek pattern = 0) :
    pattern.tail.length < pattern.length := by
  cases pattern with
  | nil => simp [peek] at h
  | cons c rest => simp

theorem classScanBody_congr (lw : Nat → Nat) (nocase : Bool) (ch : Nat)
    (f g : List Nat → Option (List Nat)) (pattern : List Nat)
    (h : ∀ q, q.length < pattern.length → f q = g q) :
    classScanBody lw nocase ch f pattern = classScanBody lw nocase ch g pattern := by
  unfold classScanBody
  by_cases h0 : peek pattern = 93 ∨ peek pattern = 0
  · simp only [if_pos h0]
  · simp only [if_neg h0]
    have h1 := peek_ne_zero_length (fun hz => h0 (Or.inr hz))
    have h2 := List.length_tail pattern.tail
    have h3 := List.length_tail pattern.tail.tail
    rw [h pattern.tail h1, h pattern.tail.tail.tail (by omega)]

theorem classScanFuel_irrel (lw : Nat → Nat) (nocase : Bool) (ch : Nat) :
    ∀ (n m : Nat) (pattern : List Nat), pattern.length < n → pattern.length < m →
      classScanFuel lw nocase ch n pattern = classScanFuel lw nocase ch m pattern := by
  intro n
  induction n with
  | zero => intro m pattern hn; omega
  | succ n ih =>
    intro m pattern hn hm
    cases m with
    | zero => omega
    | succ m =>
      show classScanBody lw nocase ch _ pattern = classScanBody lw nocase ch _ pattern
      apply classScanBody_congr
      intro q hq
      apply ih <;> omega

/-- The member loop satisfies the equation of the `while (1)` loop. -/
theorem classScan_eq (lw : Nat → Nat) (nocase : Bool) (ch : Nat) (pattern : List Nat) :
    classScan lw nocase ch pattern
      = classScanBody lw nocase ch (classScan lw nocase ch) pattern := by
  show classScanBody lw nocase ch _ pattern = _
  apply classScanBody_congr
  intro q hq
  unfold classScan
  apply classScanFuel_irrel <;> omega

theorem skipStars_length_le (pattern : List Nat) :
    (skipStars pattern).length ≤ pattern.length := by
  induction pattern with
  | nil => simp [skipStars]
  | cons c rest ih =>
    unfold skipStars
    split
    · simp only [List.length_cons]; omega
    · exact le_refl _

theorem classSkip_length_le (pattern : List Nat) :
    (classSkip pattern).length ≤ pattern.length := by
  induction pattern with
  | nil => simp [classSkip]
  | cons c rest ih =>
    unfold classSkip
    split
    · simp
    · split
      · exact le_refl _
      · simp only [List.length_cons]; omega

theorem classScan_length_lt (lw : Nat → Nat) (nocase : Bool) (ch : Nat) (pattern q : List Nat)
    (h : classScan lw nocase ch pattern = some q) : q.length < pattern.length := by
  generalize hn : pattern.length = n
  induction n using Nat.strong_induction_on generalizing pattern q with
  | _ n ih =>
    rw [classScan_eq, classScanBody] at h
    split at h
    · cases h
    · rename_i h0
      have h1 := peek_ne_zero_length (fun hz => h0 (Or.inr hz))
      have h2 := List.length_tail pattern.tail
      have h3 := List.length_tail pattern.tail.tail
      simp only at h
      repeat' split at h
      all_goals
        first
        | (cases h; omega)
        | (have hlt := ih _ (by omega) _ q h rfl; omega)
        | cases h

theorem Exp_StringCaseMatch2Body_congr (lw : Nat → Nat) (nocase : Bool)
    (f g : List Nat → List Nat → Int → Int) (string pattern : List Nat) (mtch : Int)
    (h : ∀ s q m, q.length < pattern.length → f s q m = g s q m) :
    Exp_StringCaseMatch2Body lw nocase f string pattern mtch
      = Exp_StringCaseMatch2Body lw nocase g string pattern mtch := by
  unfold Exp_StringCaseMatch2Body
  by_cases h0 : peek pattern = 0
  · simp only [if_pos h0]
  · simp only [if_neg h0]
    have h1 := peek_ne_zero_length h0
    have h2 := skipStars_length_le pattern.tail
    have h3 := List.length_tail pattern.tail
    have hstar : (fun tail => f tail (skipStars pattern.tail) 0)
        = (fun tail => g tail (skipStars pattern.tail) 0) := by
      funext tail; exact h _ _ _ (by omega)
    have hcls : (match classScan lw nocase (peek string) pattern.tail with
        | none => (-1 : Int)
        | some pattern1 => f string.tail (classSkip pattern1) (mtch + 1))
        = (match classScan lw nocase (peek string) pattern.tail with
        | none => (-1 : Int)
        | some pattern1 => g string.tail (classSkip pattern1) (mtch + 1)) := by
      cases hc : classScan lw nocase (peek string) pattern.tail with
      | none => rfl
      | some pattern1 =>
        have h4 := classScan_length_lt _ _ _ _ _ hc
        have h5 := classSkip_length_le pattern1
        exact h _ _ _ (by omega)
    have hlit : f string.tail (if peek pattern = 92 then pattern.tail else pattern).tail (mtch + 1)
        = g string.tail (if peek pattern = 92 then pattern.tail else pattern).tail (mtch + 1) := by
      apply h
      split
      · omega
      · exact h1
    rw [hstar, hcls, h string.tail pattern.tail (mtch + 1) h1, hlit]

theorem Exp_StringCaseMatch2Fuel_irrel (lw : Nat → Nat) (nocase : Bool) :
    ∀ (n m : Nat) (string pattern : List Nat) (mtch : Int),
      pattern.length < n → pattern.length < m →
      Exp_StringCaseMatch2Fuel lw nocase n string pattern mtch
        = Exp_StringCaseMatch2Fuel lw nocase m string pattern mtch := by
  intro n
  induction n with
  | zero => intro m string pattern mtch hn; omega
  | succ n ih =>
    intro m string pattern mtch hn hm
    cases m with
    | zero => omega
    | succ m =>
      show Exp_StringCaseMatch2Body lw nocase _ string pattern mtch
        = Exp_StringCaseMatch2Body lw nocase _ string pattern mtch
      apply Exp_StringCaseMatch2Body_congr
      intro s q k hq
      apply ih <;> omega

/-- The loop of `Exp_StringCaseMatch2` satisfies the equation of the source
loop: one iteration, then the loop again (or the function again, in the `*`
branch). -/
theorem Exp_StringCaseMatch2Loop_eq (lw : Nat → Nat) (nocase : Bool)
    (string pattern : List Nat) (mtch : Int) :
    Exp_StringCaseMatch2Loop lw nocase string pattern mtch
      = Exp_StringCaseMatch2Body lw nocase (Exp_StringCaseMatch2Loop lw nocase)
          string pattern mtch := by
  show Exp_StringCaseMatch2Body lw nocase _ string pattern mtch = _
  apply Exp_StringCaseMatch2Body_congr
  intro s q k hq
  unfold Exp_StringCaseMatch2Loop
  apply Exp_StringCaseMatch2Fuel_irrel <;> omega

/-! ## The backward cruise and the backward scan -/

/-- The cruise stops at `tail` or below, on the first position from `tail`
downward that it does not skip, or one position before the string. -/
theorem cruise_spec (lw : Nat → Nat) (nocase : Bool) (string : List Nat) (p : Nat) (tail : Int) :
    cruise lw nocase string p tail ≤ tail ∧
    (-1 ≤ tail → -1 ≤ cruise lw nocase string p tail) ∧
    (∀ t : Nat, cruise lw nocase string p tail < t → (t : Int) ≤ tail →
      p ≠ string.getD t 0 ∧ (nocase = true → p ≠ lw (string.getD t 0))) := by
  generalize hn : (tail + 1).toNat = n
  induction n generalizing tail with
  | zero =>
    rw [cruise_eq, cruiseBody, if_neg (by intro h; omega)]
    refine ⟨le_refl _, fun h => h, ?_⟩
    intro t h1 h2; omega
  | succ n ih =>
    rw [cruise_eq, cruiseBody]
    split
    · rename_i hc
      obtain ⟨h1, h2, h3⟩ := ih (tail - 1) (by omega)
      refine ⟨by omega, fun _ => h2 (by omega), ?_⟩
      intro t ht1 ht2
      by_cases hte : (t : Int) = tail
      · have : tail.toNat = t := by omega
        rw [this] at hc
        exact hc.2
      · exact h3 t ht1 (by omega)
    · refine ⟨le_refl _, fun h => h, ?_⟩
      intro t h1 h2; omega

/-- What the backward scan returns: `-1`, or `match + (tail - string) + rc` at a
split point `tail > string` where the recursive call succeeds.  When the
positions the cruise skips are positions where the recursive call fails
(`hsound`), the split point is the greatest one in `1 .. tail` where the
recursive call succeeds. -/
theorem starScan_spec (lw : Nat → Nat) (nocase : Bool) (string : List Nat) (p : Nat)
    (recurse : List Nat → Int) (mtch : Int) (tail : Int) :
    (starScan lw nocase string p recurse mtch tail = -1 ∧
      ((∀ t : Nat, (t : Int) ≤ tail → (p ≠ 91 ∧ p ≠ 63 ∧ p ≠ 92) → p ≠ string.getD t 0 →
          (nocase = true → p ≠ lw (string.getD t 0)) → recurse (string.drop t) = -1) →
        ∀ t : Nat, 1 ≤ t → (t : Int) ≤ tail → recurse (string.drop t) = -1)) ∨
    (∃ T : Nat, 1 ≤ T ∧ (T : Int) ≤ tail ∧ recurse (string.drop T) ≠ -1 ∧
      starScan lw nocase string p recurse mtch tail = mtch + T + recurse (string.drop T) ∧
      ((∀ t : Nat, (t : Int) ≤ tail → (p ≠ 91 ∧ p ≠ 63 ∧ p ≠ 92) → p ≠ string.getD t 0 →
          (nocase = true → p ≠ lw (string.getD t 0)) → recurse (string.drop t) = -1) →
        ∀ t : Nat, T < t → (t : Int) ≤ tail → recurse (string.drop t) = -1)) := by
  generalize hn : tail.toNat = n
  induction n using Nat.strong_induction_on generalizing tail with
  | _ n ih =>
    obtain ⟨hc1, _, hc3⟩ := cruise_spec lw nocase string p tail
    rw [starScan_eq, starScanBody]
    simp only
    generalize htail1 :
      (if p ≠ 91 ∧ p ≠ 63 ∧ p ≠ 92 then cruise lw nocase string p tail else tail) = tail1
    have h1 : tail1 ≤ tail := by
      rw [← htail1]; split
      · exact hc1
      · exact le_refl _
    have hskip : (∀ t : Nat, (t : Int) ≤ tail → (p ≠ 91 ∧ p ≠ 63 ∧ p ≠ 92) →
          p ≠ string.getD t 0 →
          (nocase = true → p ≠ lw (string.getD t 0)) → recurse (string.drop t) = -1) →
        ∀ t : Nat, tail1 < t → (t : Int) ≤ tail → recurse (string.drop t) = -1 := by
      intro hsound t ht1 ht2
      by_cases hp : p ≠ 91 ∧ p ≠ 63 ∧ p ≠ 92
      · rw [if_pos hp] at htail1
        rw [← htail1] at ht1
        obtain ⟨hs1, hs2⟩ := hc3 t ht1 ht2
        exact hsound t ht2 hp hs1 hs2
      · rw [if_neg hp] at htail1
        omega
    by_cases c1 : tail1 ≤ 0
    · rw [if_pos c1]
      left
      refine ⟨rfl, ?_⟩
      intro hsound t ht1 ht2
      exact hskip hsound t (by omega) ht2
    · rw [if_neg c1]
      have hT : ((tail1.toNat : Nat) : Int) = tail1 := by omega
      by_cases c2 : recurse (string.drop tail1.toNat) ≠ -1
      · rw [if_pos c2]
        right
        refine ⟨tail1.toNat, by omega, by omega, c2, by rw [hT], ?_⟩
        intro hsound t ht1 ht2
        exact hskip hsound t (by omega) ht2
      · rw [if_neg c2, if_neg (by omega)]
        have c3 : ¬ (tail1 - 1 < 0) := by omega
        rw [if_neg c3]
        rcases ih (tail1 - 1).toNat (by omega) (tail1 - 1) rfl with
          ⟨hr, hall⟩ | ⟨T, hT1, hT2, hT3, hT4, hT5⟩
        · left
          refine ⟨hr, ?_⟩
          intro hsound t ht1 ht2
          by_cases hlt : (t : Int) ≤ tail1 - 1
          · exact hall (fun u hu => hsound u (by omega)) t ht1 hlt
          · by_cases heq : (t : Int) = tail1
            · have hte : t = tail1.toNat := by omega
              rw [hte]; exact not_not.mp c2
            · exact hskip hsound t (by omega) ht2
        · right
          refine ⟨T, hT1, by omega, hT3, hT4, ?_⟩
          intro hsound t ht1 ht2
          by_cases hlt : (t : Int) ≤ tail1 - 1
          · exact hT5 (fun u hu => hsound u (by omega)) t ht1 hlt
          · by_cases heq : (t : Int) = tail1
            · have hte : t = tail1.toNat := by omega
              rw [hte]; exact not_not.mp c2
            · exact hskip hsound t (by omega) ht2

/-! ## Range of the result -/

theorem peek_ne_zero_cons {l : List Nat} (h : ¬ peek l = 0) : ∃ c rest, l = c :: rest ∧ c ≠ 0 := by
  cases l with
  | nil => simp [peek] at h
  | cons c rest => exact ⟨c, rest, rfl, by simpa [peek] using h⟩

/-- The loop entered with count `match` on `string` returns `-1` or a count
between `match` and `match + (stop - string)`. -/
theorem loop_bounds (lw : Nat → Nat) (nocase : Bool) (pattern : List Nat) :
    ∀ (string : List Nat) (mtch : Int),
      Exp_StringCaseMatch2Loop lw nocase string pattern mtch = -1 ∨
      (mtch ≤ Exp_StringCaseMatch2Loop lw nocase string pattern mtch ∧
        Exp_StringCaseMatch2Loop lw nocase string pattern mtch ≤ mtch + string.length) := by
  generalize hn : pattern.length = n
  induction n using Nat.strong_induction_on generalizing pattern with
  | _ n ih =>
    intro string mtch
    rw [Exp_StringCaseMatch2Loop_eq, Exp_StringCaseMatch2Body]
    by_cases h0 : peek pattern = 0
    · rw [if_pos h0]; right; omega
    rw [if_neg h0]
    have h1 := peek_ne_zero_length h0
    by_cases hd : peek pattern = 36 ∧ peek pattern.tail = 0
    · rw [if_pos hd]
      split
      · right; omega
      · left; rfl
    rw [if_neg hd]
    by_cases hs : peek pattern = 42
    · rw [if_pos hs]
      simp only
      by_cases hp : peek (skipStars pattern.tail) = 0
      · rw [if_pos hp]; right; omega
      · rw [if_neg hp]
        have h2 := skipStars_length_le pattern.tail
        rcases starScan_spec lw nocase string
            (if nocase = true then lw (peek (skipStars pattern.tail))
              else peek (skipStars pattern.tail))
            (fun tail => Exp_StringCaseMatch2Loop lw nocase tail (skipStars pattern.tail) 0)
            mtch ((string.length : Int) - 1) with ⟨hr, _⟩ | ⟨T, hT1, hT2, hT3, hT4, _⟩
        · left; exact hr
        · rw [hT4]
          have := ih _ (by omega) (skipStars pattern.tail) rfl (string.drop T) 0
          simp only [List.length_drop] at this
          rcases this with h | ⟨h, h3⟩
          · exact absurd h hT3
          · right
            omega
    rw [if_neg hs]
    by_cases hz : peek string = 0
    · rw [if_pos hz]; left; rfl
    rw [if_neg hz]
    obtain ⟨c, s1, hcs, _⟩ := peek_ne_zero_cons hz
    subst hcs
    simp only [List.tail_cons, List.length_cons]
    by_cases hq : peek pattern = 63
    · rw [if_pos hq]
      rcases ih _ (by omega) pattern.tail rfl s1 (mtch + 1) with h | ⟨h, h3⟩
      · left; exact h
      · right; push_cast; omega
    rw [if_neg hq]
    by_cases hb : peek pattern = 91
    · rw [if_pos hb]
      cases hc : classScan lw nocase (peek (c :: s1)) pattern.tail with
      | none => left; rfl
      | some pattern1 =>
        have h4 := classScan_length_lt _ _ _ _ _ hc
        have h5 := classSkip_length_le pattern1
        simp only
        rcases ih _ (by omega) (classSkip pattern1) rfl s1 (mtch + 1) with h | ⟨h, h3⟩
        · left; exact h
        · right; push_cast; omega
    rw [if_neg hb]
    generalize hp1 : (if peek pattern = 92 then pattern.tail else pattern) = pattern1
    have h6 : pattern1.tail.length < n := by
      have := List.length_tail pattern.tail
      rw [← hp1]
      split <;> omega
    have hrec := ih _ h6 _ rfl s1 (mtch + 1)
    split_ifs
    all_goals first
      | (left; rfl)
      | (rcases hrec with h | ⟨h, h3⟩
         · left; exact h
         · right; push_cast; omega)

/-- `Exp_StringCaseMatch2` returns `-1` or a count in `0 .. stop - string`. -/
theorem match2_bounds (lw : Nat → Nat) (string pattern : List Nat) (nocase : Bool) :
    Exp_StringCaseMatch2 lw string pattern nocase = -1 ∨
    (0 ≤ Exp_StringCaseMatch2 lw string pattern nocase ∧
      Exp_StringCaseMatch2 lw string pattern nocase ≤ string.length) := by
  have := loop_bounds lw nocase pattern string 0
  unfold Exp_StringCaseMatch2
  omega

/-! ## The count `match` is carried along -/

theorem starScan_mtch (lw : Nat → Nat) (nocase : Bool) (string : List Nat) (p : Nat)
    (recurse : List Nat → Int) (hrec : ∀ t, recurse t = -1 ∨ 0 ≤ recurse t) (mtch : Int)
    (tail : Int) :
    starScan lw nocase string p recurse mtch tail
      = addMatched mtch (starScan lw nocase string p recurse 0 tail) := by
  generalize hn : tail.toNat = n
  induction n using Nat.strong_induction_on generalizing tail with
  | _ n ih =>
    have hc1 := cruise_le lw nocase string p tail
    rw [starScan_eq, starScanBody, starScan_eq lw nocase string p recurse 0, starScanBody]
    simp only
    generalize htail1 :
      (if p ≠ 91 ∧ p ≠ 63 ∧ p ≠ 92 then cruise lw nocase string p tail else tail) = tail1
    have h1 : tail1 ≤ tail := by
      rw [← htail1]; split
      · exact hc1
      · exact le_refl _
    by_cases c1 : tail1 ≤ 0
    · rw [if_pos c1, if_pos c1]; rfl
    · rw [if_neg c1, if_neg c1]
      by_cases c2 : recurse (string.drop tail1.toNat) ≠ -1
      · rw [if_pos c2, if_pos c2]
        have := hrec (string.drop tail1.toNat)
        unfold addMatched
        rw [if_neg (by omega)]
        omega
      · have c3 : ¬ (tail1 - 1 < 0) := by omega
        have c4 : ¬ tail1 = 0 := by omega
        simp only [if_neg c2, if_neg c3, if_neg c4]
        exact ih (tail1 - 1).toNat (by omega) (tail1 - 1) rfl

theorem addMatched_neg (k : Int) : addMatched k (-1) = -1 := rfl

theorem addMatched_zero (r : Int) : addMatched 0 r = r := by
  unfold addMatched; split <;> omega

theorem addMatched_add (k j r : Int) (h : r = -1 ∨ 0 ≤ r) (hj : 0 ≤ j) :
    addMatched k (addMatched j r) = addMatched (k + j) r := by
  unfold addMatched
  split_ifs <;> omega

/-- The loop entered with count `match` returns what the loop entered with
count `0` returns, moved by `match`. -/
theorem loop_mtch (lw : Nat → Nat) (nocase : Bool) (pattern : List Nat) :
    ∀ (string : List Nat) (mtch : Int),
      Exp_StringCaseMatch2Loop lw nocase string pattern mtch
        = addMatched mtch (Exp_StringCaseMatch2Loop lw nocase string pattern 0) := by
  generalize hn : pattern.length = n
  induction n using Nat.strong_induction_on generalizing pattern with
  | _ n ih =>
    intro string mtch
    rw [Exp_StringCaseMatch2Loop_eq, Exp_StringCaseMatch2Body,
      Exp_StringCaseMatch2Loop_eq lw nocase string pattern 0, Exp_StringCaseMatch2Body]
    by_cases h0 : peek pattern = 0
    · rw [if_pos h0, if_pos h0]; simp [addMatched]
    rw [if_neg h0, if_neg h0]
    have h1 := peek_ne_zero_length h0
    by_cases hd : peek pattern = 36 ∧ peek pattern.tail = 0
    · rw [if_pos hd, if_pos hd]
      split <;> simp [addMatched]
    rw [if_neg hd, if_neg hd]
    by_cases hs : peek pattern = 42
    · rw [if_pos hs, if_pos hs]
      simp only
      by_cases hp : peek (skipStars pattern.tail) = 0
      · rw [if_pos hp, if_pos hp]
        unfold addMatched
        rw [if_neg (by omega)]; omega
      · rw [if_neg hp, if_neg hp]
        apply starScan_mtch
        intro t
        have := loop_bounds lw nocase (skipStars pattern.tail) t 0
        omega
    rw [if_neg hs, if_neg hs]
    by_cases hz : peek string = 0
    · rw [if_pos hz, if_pos hz]; rfl
    rw [if_neg hz, if_neg hz]
    have hstep : ∀ (q : List Nat), q.length < n →
        Exp_StringCaseMatch2Loop lw nocase string.tail q (mtch + 1)
          = addMatched mtch (Exp_StringCaseMatch2Loop lw nocase string.tail q (0 + 1)) := by
      intro q hq
      rw [ih _ hq q rfl string.tail (mtch + 1), ih _ hq q rfl string.tail (0 + 1)]
      have := loop_bounds lw nocase q string.tail 0
      rw [addMatched_add _ _ _ (by omega) (by omega), zero_add]
    by_cases hq : peek pattern = 63
    · rw [if_pos hq, if_pos hq]
      exact hstep _ (by omega)
    rw [if_neg hq, if_neg hq]
    by_cases hb : peek pattern = 91
    · rw [if_pos hb, if_pos hb]
      cases hc : classScan lw nocase (peek string) pattern.tail with
      | none => rfl
      | some pattern1 =>
        have h4 := classScan_length_lt _ _ _ _ _ hc
        have h5 := classSkip_length_le pattern1
        exact hstep _ (by omega)
    rw [if_neg hb, if_neg hb]
    generalize hp1 : (if peek pattern = 92 then pattern.tail else pattern) = pattern1
    have h6 : pattern1.tail.length < n := by
      have := List.length_tail pattern.tail
      rw [← hp1]
      split <;> omega
    have hrec := hstep _ h6
    simp only
    split_ifs
    all_goals first
      | rfl
      | exact hrec

theorem match2_loop (lw : Nat → Nat) (nocase : Bool) (string pattern : List Nat) (mtch : Int) :
    Exp_StringCaseMatch2Loop lw nocase string pattern mtch
      = addMatched mtch (Exp_StringCaseMatch2 lw string pattern nocase) :=
  loop_mtch lw nocase pattern string mtch

/-! ## One iteration of `Exp_StringCaseMatch2`, by the shape of the pattern -/

theorem match2_end (lw : Nat → Nat) (nocase : Bool) (string pattern : List Nat)
    (h : peek pattern = 0) : Exp_StringCaseMatch2 lw string pattern nocase = 0 := by
  unfold Exp_StringCaseMatch2
  rw [Exp_StringCaseMatch2Loop_eq, Exp_StringCaseMatch2Body, if_pos h]

theorem match2_dollar (lw : Nat → Nat) (nocase : Bool) (string rest : List Nat)
    (h : peek rest = 0) :
    Exp_StringCaseMatch2 lw string (36 :: rest) nocase = if peek string = 0 then 0 else -1 := by
  unfold Exp_StringCaseMatch2
  rw [Exp_StringCaseMatch2Loop_eq, Exp_StringCaseMatch2Body]
  simp [peek] at h ⊢
  simp [h]

theorem match2_star (lw : Nat → Nat) (nocase : Bool) (string rest : List Nat) :
    Exp_StringCaseMatch2 lw string (42 :: rest) nocase =
      if peek (skipStars rest) = 0 then (string.length : Int)
      else starScan lw nocase string
        (if nocase = true then lw (peek (skipStars rest)) else peek (skipStars rest))
        (fun tail => Exp_StringCaseMatch2 lw tail (skipStars rest) nocase) 0
        ((string.length : Int) - 1) := by
  unfold Exp_StringCaseMatch2
  rw [Exp_StringCaseMatch2Loop_eq, Exp_StringCaseMatch2Body]
  simp [peek]

theorem match2_empty (lw : Nat → Nat) (nocase : Bool) (string : List Nat) (x : Nat)
    (rest : List Nat) (hs : peek string = 0) (h0 : x ≠ 0) (h1 : x ≠ 42)
    (h2 : ¬ (x = 36 ∧ peek rest = 0)) :
    Exp_StringCaseMatch2 lw string (x :: rest) nocase = -1 := by
  unfold Exp_StringCaseMatch2
  rw [Exp_StringCaseMatch2Loop_eq, Exp_StringCaseMatch2Body]
  have h3 : peek (x :: rest) = x := rfl
  rw [h3, List.tail_cons, if_neg h0, if_neg h2, if_neg h1, if_pos hs]

theorem match2_quest (lw : Nat → Nat) (nocase : Bool) (c : Nat) (s rest : List Nat)
    (hc : c ≠ 0) :
    Exp_StringCaseMatch2 lw (c :: s) (63 :: rest) nocase
      = addMatched 1 (Exp_StringCaseMatch2 lw s rest nocase) := by
  unfold Exp_StringCaseMatch2
  rw [Exp_StringCaseMatch2Loop_eq, Exp_StringCaseMatch2Body, loop_mtch]
  simp [peek, hc]

theorem match2_class (lw : Nat → Nat) (nocase : Bool) (c : Nat) (s rest : List Nat)
    (hc : c ≠ 0) :
    Exp_StringCaseMatch2 lw (c :: s) (91 :: rest) nocase
      = match classScan lw nocase c rest with
        | none => -1
        | some pattern1 => addMatched 1 (Exp_StringCaseMatch2 lw s (classSkip pattern1) nocase) := by
  unfold Exp_StringCaseMatch2
  rw [Exp_StringCaseMatch2Loop_eq, Exp_StringCaseMatch2Body]
  have e : ∀ q, Exp_StringCaseMatch2Loop lw nocase s q 1
      = addMatched 1 (Exp_StringCaseMatch2Loop lw nocase s q 0) :=
    fun q => loop_mtch lw nocase q s 1
  simp [peek, hc, e]

theorem match2_esc (lw : Nat → Nat) (nocase : Bool) (c : Nat) (s rest : List Nat)
    (hc : c ≠ 0) :
    Exp_StringCaseMatch2 lw (c :: s) (92 :: rest) nocase
      = if peek rest = 0 then -1
        else if mismatch lw nocase c (peek rest) then -1
        else addMatched 1 (Exp_StringCaseMatch2 lw s rest.tail nocase) := by
  unfold Exp_StringCaseMatch2
  rw [Exp_StringCaseMatch2Loop_eq, Exp_StringCaseMatch2Body]
  have e : ∀ q, Exp_StringCaseMatch2Loop lw nocase s q 1
      = addMatched 1 (Exp_StringCaseMatch2Loop lw nocase s q 0) :=
    fun q => loop_mtch lw nocase q s 1
  simp [peek, hc, mismatch, e]

theorem match2_lit (lw : Nat → Nat) (nocase : Bool) (c x : Nat) (s rest : List Nat)
    (hc : c ≠ 0) (h0 : x ≠ 0) (h1 : x ≠ 42) (h2 : ¬ (x = 36 ∧ peek rest = 0)) (h3 : x ≠ 63)
    (h4 : x ≠ 91) (h5 : x ≠ 92) :
    Exp_StringCaseMatch2 lw (c :: s) (x :: rest) nocase
      = if mismatch lw nocase c x then -1
        else addMatched 1 (Exp_StringCaseMatch2 lw s rest nocase) := by
  unfold Exp_StringCaseMatch2
  rw [Exp_StringCaseMatch2Loop_eq, Exp_StringCaseMatch2Body]
  have e : ∀ q, Exp_StringCaseMatch2Loop lw nocase s q 1
      = addMatched 1 (Exp_StringCaseMatch2Loop lw nocase s q 0) :=
    fun q => loop_mtch lw nocase q s 1
  have h6 : ¬ (x = 36 ∧ rest.headD 0 = 0) := h2
  simp only [peek, List.headD_cons, List.tail_cons, if_neg h0, if_neg h1, if_neg h6, if_neg hc,
    if_neg h3, if_neg h4, if_neg h5, false_and, if_false, mismatch, zero_add, e]
  rw [if_neg (fun h => h5 h.1)]

/-! ## The search over the start offsets -/

/-- The `for` loop over the suffixes of `t` returns the first suffix where
`Exp_StringCaseMatch2` succeeds, with its offset, or `(-1, 0)`. -/
theorem searchFrom_spec (lw : Nat → Nat) (nocase : Bool) (pattern : List Nat) :
    ∀ (t : List Nat) (off : Nat),
      (searchFrom lw nocase pattern 0 t off = (-1, 0) ∧
        ∀ j, j < t.length → Exp_StringCaseMatch2 lw (t.drop j) pattern nocase = -1) ∨
      (∃ j, j < t.length ∧ Exp_StringCaseMatch2 lw (t.drop j) pattern nocase ≠ -1 ∧
        (∀ i, i < j → Exp_StringCaseMatch2 lw (t.drop i) pattern nocase = -1) ∧
        searchFrom lw nocase pattern 0 t off
          = (Exp_StringCaseMatch2 lw (t.drop j) pattern nocase, off + j)) := by
  intro t
  induction t with
  | nil =>
    intro off
    left
    exact ⟨rfl, fun j hj => absurd hj (by simp)⟩
  | cons c t ih =>
    intro off
    unfold searchFrom
    simp only
    by_cases h : Exp_StringCaseMatch2 lw (c :: t) pattern nocase ≠ -1
    · rw [if_pos h]
      right
      refine ⟨0, by simp, h, fun i hi => absurd hi (by omega), ?_⟩
      simp
    · rw [if_neg h]
      rcases ih (off + 1) with ⟨h1, h2⟩ | ⟨j, hj1, hj2, hj3, hj4⟩
      · left
        refine ⟨h1, ?_⟩
        intro j hj
        cases j with
        | zero => exact not_not.mp h
        | succ j => exact h2 j (by simpa using hj)
      · right
        refine ⟨j + 1, by simpa using hj1, hj2, ?_, ?_⟩
        · intro i hi
          cases i with
          | zero => exact not_not.mp h
          | succ i => exact hj3 i (by omega)
        · rw [hj4]
          simp only [List.drop_succ_cons, Prod.mk.injEq, true_and]
          omega

/-- What `Exp_StringCaseMatch` returns for a pattern that begins neither with
`^` nor with `*`, on a string that does not begin with the code point 0: the
first start offset among `0` and `1 .. strlen - 1` where
`Exp_StringCaseMatch2` succeeds, with the count it returns there. -/
theorem search_spec (lw : Nat → Nat) (nocase : Bool) (s pattern : List Nat)
    (hs : s = [] ∨ peek s ≠ 0) (h1 : peek pattern ≠ 94) (h2 : peek pattern ≠ 42) :
    (Exp_StringCaseMatch lw s pattern nocase = (-1, 0) ∧
      ∀ k, (k = 0 ∨ k < s.length) → Exp_StringCaseMatch2 lw (s.drop k) pattern nocase = -1) ∨
    (∃ k, (k = 0 ∨ k < s.length) ∧ Exp_StringCaseMatch2 lw (s.drop k) pattern nocase ≠ -1 ∧
      (∀ i, i < k → Exp_StringCaseMatch2 lw (s.drop i) pattern nocase = -1) ∧
      Exp_StringCaseMatch lw s pattern nocase
        = (Exp_StringCaseMatch2 lw (s.drop k) pattern nocase, k)) := by
  unfold Exp_StringCaseMatch
  simp only [h1, h2, decide_False, Bool.not_false, Bool.and_false, Bool.false_eq_true, if_false,
    ge_iff_le]
  have hb := match2_bounds lw s pattern nocase
  by_cases h0 : 0 ≤ Exp_StringCaseMatch2 lw s pattern nocase
  · rw [if_pos h0]
    right
    exact ⟨0, Or.inl rfl, by simp only [List.drop_zero]; omega,
      fun i hi => absurd hi (by omega), by simp⟩
  · rw [if_neg h0]
    have h3 : Exp_StringCaseMatch2 lw s pattern nocase = -1 := by omega
    by_cases hz : peek s = 0
    · rw [if_pos hz]
      have hnil : s = [] := by
        rcases hs with h | h
        · exact h
        · exact absurd hz h
      left
      refine ⟨rfl, ?_⟩
      intro k hk
      subst hnil
      simpa using h3
    · rw [if_neg hz]
      obtain ⟨c, t, hct, _⟩ := peek_ne_zero_cons hz
      subst hct
      simp only [List.tail_cons, List.length_cons]
      rcases searchFrom_spec lw nocase pattern t 1 with ⟨h4, h5⟩ | ⟨j, hj1, hj2, hj3, hj4⟩
      · left
        refine ⟨h4, ?_⟩
        intro k hk
        cases k with
        | zero => exact h3
        | succ k => exact h5 k (by omega)
      · right
        refine ⟨j + 1, Or.inr (by omega), hj2, ?_, ?_⟩
        · intro i hi
          cases i with
          | zero => exact h3
          | succ i => exact hj3 i (by omega)
        · rw [hj4]
          simp only [List.drop_succ_cons, Prod.mk.injEq, true_and]
          omega

theorem search_caret (lw : Nat → Nat) (nocase : Bool) (s q : List Nat) :
    Exp_StringCaseMatch lw s (94 :: q) nocase = (Exp_StringCaseMatch2 lw s q nocase, 0) := by
  unfold Exp_StringCaseMatch
  have hb := match2_bounds lw s q nocase
  simp only [peek, List.headD_cons, decide_True, List.tail_cons, if_true, ge_iff_le]
  split
  · rfl
  · have h3 : Exp_StringCaseMatch2 lw s q nocase = -1 := by omega
    rw [h3]

/-- Whatever the pattern, `Exp_StringCaseMatch` returns `(-1, 0)` or the count
of `Exp_StringCaseMatch2` at the offset it reports, which is `0` or lies in
`1 .. strlen - 1`; `q` is the pattern without its leading `^`. -/
theorem search_cases (lw : Nat → Nat) (nocase : Bool) (s pattern : List Nat) :
    Exp_StringCaseMatch lw s pattern nocase = (-1, 0) ∨
    (∃ k, (k = 0 ∨ k < s.length) ∧
      Exp_StringCaseMatch2 lw (s.drop k)
        (if decide (peek pattern = 94) = true then pattern.tail else pattern) nocase ≠ -1 ∧
      Exp_StringCaseMatch lw s pattern nocase
        = (Exp_StringCaseMatch2 lw (s.drop k)
            (if decide (peek pattern = 94) = true then pattern.tail else pattern) nocase, k)) := by
  unfold Exp_StringCaseMatch
  simp only [ge_iff_le]
  generalize (if decide (peek pattern = 94) = true then pattern.tail else pattern) = q
  generalize decide (peek pattern = 94) = caret
  generalize (!caret && decide (peek pattern = 42)) = star
  have hb := match2_bounds lw s q nocase
  by_cases h0 : 0 ≤ Exp_StringCaseMatch2 lw s q nocase
  · rw [if_pos h0]
    right
    exact ⟨0, Or.inl rfl, by simp only [List.drop_zero]; omega, by simp⟩
  · rw [if_neg h0]
    by_cases hc : caret = true
    · rw [if_pos hc]; left; rfl
    rw [if_neg hc]
    by_cases hst : star = true
    · rw [if_pos hst]; left; rfl
    rw [if_neg hst]
    by_cases hz : peek s = 0
    · rw [if_pos hz]; left; rfl
    rw [if_neg hz]
    obtain ⟨c, t, hct, _⟩ := peek_ne_zero_cons hz
    subst hct
    simp only [List.tail_cons, List.length_cons]
    rcases searchFrom_spec lw nocase q t 1 with ⟨h4, _⟩ | ⟨j, hj1, hj2, _, hj4⟩
    · left; exact h4
    · right
      refine ⟨j + 1, Or.inr (by omega), hj2, ?_⟩
      rw [hj4]
      simp only [List.drop_succ_cons, Prod.mk.injEq, true_and]
      omega

/-- A count reported by `Exp_StringCaseMatch` for a pattern without a leading
`^` is the count of `Exp_StringCaseMatch2` at the reported offset. -/
theorem search_sound (lw : Nat → Nat) (nocase : Bool) (s pattern : List Nat) (n : Int) (k : Nat)
    (h : Exp_StringCaseMatch lw s pattern nocase = (n, k)) (hn : n ≠ -1)
    (h1 : peek pattern ≠ 94) :
    Exp_StringCaseMatch2 lw (s.drop k) pattern nocase = n := by
  rcases search_cases lw nocase s pattern with h2 | ⟨k0, _, _, h4⟩
  · rw [h2] at h; cases h; exact absurd rfl hn
  · rw [h4] at h
    simp only [h1, decide_False, Bool.false_eq_true, if_false] at h
    cases h
    rfl

/-! ## Patterns of ordinary characters -/

/-- A pattern of ordinary characters, matched with the case kept, matches
exactly the strings it is a leading part of, and then all of its length. -/
theorem match2_literal (lw : Nat → Nat) (p : List Nat) (hp : ∀ x ∈ p, ordinary x) :
    ∀ t : List Nat, Exp_StringCaseMatch2 lw t p false
      = if t.take p.length = p then (p.length : Int) else -1 := by
  induction p with
  | nil => intro t; rw [match2_end lw false t [] rfl]; simp
  | cons x p ih =>
    intro t
    obtain ⟨h0, h1, h3, h4, h5, h6, _⟩ := hp x (by simp)
    have ih1 := ih (fun y hy => hp y (by simp [hy]))
    cases t with
    | nil =>
      rw [match2_empty lw false [] x p rfl h0 h1 (fun h => h6 h.1)]
      simp
    | cons c t =>
      by_cases hc : c = 0
      · subst hc
        rw [match2_empty lw false (0 :: t) x p rfl h0 h1 (fun h => h6 h.1), if_neg]
        simp only [List.length_cons, List.take_succ_cons, List.cons.injEq, not_and]
        intro h; exact absurd h.symm h0
      · rw [match2_lit lw false c x t p hc h0 h1 (fun h => h6 h.1) h3 h4 h5, ih1 t]
        simp only [mismatch, Bool.false_eq_true, if_false, List.length_cons, List.take_succ_cons,
          List.cons.injEq]
        by_cases hcx : c = x
        · simp only [hcx, ne_eq, not_true_eq_false, if_false, true_and]
          unfold addMatched
          split_ifs <;> first | rfl | contradiction | (push_cast; omega)
        · simp [hcx]

/-- A pattern of ordinary characters followed by the final `$`, matched with
the case kept against a string without the code point 0, matches exactly the
string equal to it. -/
theorem match2_literal_dollar (lw : Nat → Nat) (q : List Nat) (hq : ∀ x ∈ q, ordinary x) :
    ∀ t : List Nat, (∀ c ∈ t, c ≠ 0) → Exp_StringCaseMatch2 lw t (q ++ [36]) false
      = if t = q then (q.length : Int) else -1 := by
  induction q with
  | nil =>
    intro t ht
    rw [List.nil_append, match2_dollar lw false t [] rfl]
    cases t with
    | nil => simp [peek]
    | cons c t => simp [peek, ht c (by simp)]
  | cons x q ih =>
    intro t ht
    obtain ⟨h0, h1, h3, h4, h5, h6, _⟩ := hq x (by simp)
    have ih1 := ih (fun y hy => hq y (by simp [hy]))
    rw [List.cons_append]
    cases t with
    | nil =>
      rw [match2_empty lw false [] x _ rfl h0 h1 (fun h => h6 h.1)]
      simp
    | cons c t =>
      have hc : c ≠ 0 := ht c (by simp)
      rw [match2_lit lw false c x t _ hc h0 h1 (fun h => h6 h.1) h3 h4 h5,
        ih1 t (fun d hd => ht d (by simp [hd]))]
      simp only [mismatch, Bool.false_eq_true, if_false, List.length_cons, List.cons.injEq]
      by_cases hcx : c = x
      · simp only [hcx, ne_eq, not_true_eq_false, if_false, true_and]
        unfold addMatched
        split_ifs <;> first | rfl | contradiction | (push_cast; omega)
      · simp [hcx]

/-! ## The star -/

theorem skipStars_peek (r : List Nat) : peek (skipStars r) ≠ 42 := by
  induction r with
  | nil => simp [skipStars, peek]
  | cons x r ih =>
    unfold skipStars
    split
    · exact ih
    · rename_i h; simpa [peek] using h

theorem skipStars_id (r : List Nat) (h : peek r ≠ 42) : skipStars r = r := by
  cases r with
  | nil => rfl
  | cons x r =>
    unfold skipStars
    rw [if_neg (by simpa [peek] using h)]

/-- The positions that the backward cruise skips are positions where the
pattern after the star does not match: a skipped position holds a code point
that differs from the first pattern character, which is then an ordinary
character or the final `$`.  With `nocase` this needs `Tcl_UniCharToLower` to
keep `[`, `?` and `\`. -/
theorem cruise_sound (lw : Nat → Nat) (nocase : Bool)
    (hlw : nocase = true → lw 91 = 91 ∧ lw 63 = 63 ∧ lw 92 = 92) (u q : List Nat)
    (hu : ∀ c ∈ u, c ≠ 0) (hq0 : peek q ≠ 0) (hq1 : peek q ≠ 42) :
    ∀ t : Nat, (t : Int) ≤ (u.length : Int) - 1 →
      ((if nocase = true then lw (peek q) else peek q) ≠ 91 ∧
        (if nocase = true then lw (peek q) else peek q) ≠ 63 ∧
        (if nocase = true then lw (peek q) else peek q) ≠ 92) →
      (if nocase = true then lw (peek q) else peek q) ≠ u.getD t 0 →
      (nocase = true → (if nocase = true then lw (peek q) else peek q) ≠ lw (u.getD t 0)) →
      Exp_StringCaseMatch2 lw (u.drop t) q nocase = -1 := by
  intro t ht hsp hne hnel
  have htl : t < u.length := by omega
  rw [List.getD_eq_getElem u 0 htl] at hne hnel
  rw [List.drop_eq_getElem_cons htl]
  have hc : u[t] ≠ 0 := hu _ (List.getElem_mem _)
  obtain ⟨x, q1, hxq, hx0⟩ := peek_ne_zero_cons hq0
  subst hxq
  have hpx : peek (x :: q1) = x := rfl
  rw [hpx] at hsp hne hnel hq1
  by_cases hd : x = 36 ∧ peek q1 = 0
  · rw [hd.1, match2_dollar lw nocase _ q1 hd.2]
    have hpk : peek (u[t] :: List.drop (t + 1) u) = u[t] := rfl
    rw [hpk, if_neg hc]
  · have hx : x ≠ 63 ∧ x ≠ 91 ∧ x ≠ 92 := by
      cases nocase with
      | false => simpa [and_comm, and_assoc, and_left_comm] using hsp
      | true =>
        obtain ⟨h91, h63, h92⟩ := hlw rfl
        simp only [if_true] at hsp
        refine ⟨?_, ?_, ?_⟩
        · intro h; rw [h, h63] at hsp; exact hsp.2.1 rfl
        · intro h; rw [h, h91] at hsp; exact hsp.1 rfl
        · intro h; rw [h, h92] at hsp; exact hsp.2.2 rfl
    rw [match2_lit lw nocase _ x _ q1 hc hx0 hq1 hd hx.1 hx.2.1 hx.2.2, if_pos]
    unfold mismatch
    cases nocase with
    | false => simpa using fun h => hne h.symm
    | true => simpa using fun h => hnel rfl h.symm

/-- The star branch on a string without the code point 0: with `q` the
pattern after the run of stars, `Exp_StringCaseMatch2(string, *q)` is the
length of the string when `q` is empty, and otherwise `T + rc` for the
greatest split point `T` in `1 .. strlen - 1` where `q` matches (with count
`rc`), or `-1` when there is none. -/
theorem star_spec (lw : Nat → Nat) (nocase : Bool)
    (hlw : nocase = true → lw 91 = 91 ∧ lw 63 = 63 ∧ lw 92 = 92) (u rest : List Nat)
    (hu : ∀ c ∈ u, c ≠ 0) (hq0 : peek (skipStars rest) ≠ 0) :
    (Exp_StringCaseMatch2 lw u (42 :: rest) nocase = -1 ∧
      ∀ t : Nat, 1 ≤ t → t < u.length →
        Exp_StringCaseMatch2 lw (u.drop t) (skipStars rest) nocase = -1) ∨
    (∃ T : Nat, 1 ≤ T ∧ T < u.length ∧
      Exp_StringCaseMatch2 lw (u.drop T) (skipStars rest) nocase ≠ -1 ∧
      Exp_StringCaseMatch2 lw u (42 :: rest) nocase
        = T + Exp_StringCaseMatch2 lw (u.drop T) (skipStars rest) nocase ∧
      ∀ t : Nat, T < t → t < u.length →
        Exp_StringCaseMatch2 lw (u.drop t) (skipStars rest) nocase = -1) := by
  rw [match2_star, if_neg hq0]
  have hsound := cruise_sound lw nocase hlw u (skipStars rest) hu hq0 (skipStars_peek rest)
  rcases starScan_spec lw nocase u
      (if nocase = true then lw (peek (skipStars rest)) else peek (skipStars rest))
      (fun tail => Exp_StringCaseMatch2 lw tail (skipStars rest) nocase) 0
      ((u.length : Int) - 1) with ⟨hr, hall⟩ | ⟨T, hT1, hT2, hT3, hT4, hT5⟩
  · left
    refine ⟨hr, ?_⟩
    intro t ht1 ht2
    exact hall hsound t ht1 (by omega)
  · right
    refine ⟨T, hT1, by omega, hT3, ?_, ?_⟩
    · rw [hT4]; simp
    · intro t ht1 ht2
      exact hT5 hsound t ht1 (by omega)

theorem match2_nil_stars (lw : Nat → Nat) (nocase : Bool) (rest : List Nat)
    (h : peek (skipStars rest) = 0) : Exp_StringCaseMatch2 lw [] rest nocase = 0 := by
  cases rest with
  | nil => exact match2_end lw nocase [] [] rfl
  | cons x r =>
    by_cases hx : x = 42
    · subst hx
      have h1 : skipStars (42 :: r) = skipStars r := by simp [skipStars]
      rw [h1] at h
      rw [match2_star, if_pos h]; rfl
    · have h1 : skipStars (x :: r) = x :: r := by simp [skipStars, hx]
      rw [h1] at h
      exact match2_end lw nocase [] (x :: r) h

theorem drop_no_zero {s : List Nat} (hs : ∀ c ∈ s, c ≠ 0) (k : Nat) :
    ∀ c ∈ s.drop k, c ≠ 0 :=
  fun c hc => hs c (List.mem_of_mem_drop hc)

/-! ## Character classes -/

/-- The member loop on the class body `a-b]...`. -/
theorem classScan_range (lw : Nat → Nat) (nocase : Bool) (a b c : Nat) (rest : List Nat)
    (ha0 : a ≠ 0) (ha : a ≠ 93) (hb0 : b ≠ 0) :
    classScan lw nocase c (a :: 45 :: b :: 93 :: rest)
      = if ((if nocase = true then lw a else a) ≤ c ∧ c ≤ (if nocase = true then lw b else b)) ∨
          ((if nocase = true then lw b else b) ≤ c ∧ c ≤ (if nocase = true then lw a else a))
        then some (93 :: rest) else none := by
  have hnone : classScan lw nocase c (93 :: rest) = none := by
    rw [classScan_eq, classScanBody]; simp [peek]
  rw [classScan_eq, classScanBody]
  simp only [peek, List.headD_cons, List.tail_cons, hnone]
  rw [if_neg (by simp [ha, ha0]), if_pos trivial, if_neg hb0]

theorem classSkip_open (q : List Nat) (hq : ∀ x ∈ q, x ≠ 93 ∧ x ≠ 0) : classSkip q = [] := by
  induction q with
  | nil => rfl
  | cons x q ih =>
    obtain ⟨h1, h2⟩ := hq x (by simp)
    unfold classSkip
    rw [if_neg h1, if_neg h2]
    exact ih (fun y hy => hq y (by simp [hy]))

theorem classScan_nil (lw : Nat → Nat) (nocase : Bool) (c : Nat) :
    classScan lw nocase c [] = none := by
  rw [classScan_eq, classScanBody]; simp [peek]

theorem classMembers_plain (a d : Nat) (rest : List Nat) (hd : ¬ d = 45) :
    classMembers (a :: d :: rest) = (a, a) :: classMembers (d :: rest) := by
  cases rest <;> simp [classMembers, hd]

/-- On a class body that runs to the end of the pattern the member loop
breaks exactly when a member accepts the character, and it then leaves the
cursor inside the body. -/
theorem classScan_accepts (lw : Nat → Nat) (nocase : Bool) (c : Nat) (m : List Nat)
    (hm : ∀ x ∈ m, x ≠ 93 ∧ x ≠ 0) :
    (classScan lw nocase c m = none ∧ classAccepts lw nocase c m = false) ∨
    (∃ q, classScan lw nocase c m = some q ∧ classAccepts lw nocase c m = true ∧
      ∀ x ∈ q, x ∈ m) := by
  generalize hn : m.length = n
  induction n using Nat.strong_induction_on generalizing m with
  | _ n ih =>
    match m, hm, hn with
    | [], _, _ =>
      left
      exact ⟨classScan_nil lw nocase c, rfl⟩
    | [a], hm, _ =>
      obtain ⟨h1, h2⟩ := hm a (by simp)
      rw [classScan_eq, classScanBody]
      simp only [peek, List.headD_cons, List.tail_cons, List.headD_nil, classScan_nil]
      rw [if_neg (by simp [h1, h2]), if_neg (by decide)]
      by_cases hs : (if nocase = true then lw a else a) = c
      · right
        refine ⟨[], by rw [if_pos hs], ?_, fun x hx => absurd hx (by simp)⟩
        simp [classAccepts, classMembers, hs]
      · left
        refine ⟨by rw [if_neg hs], ?_⟩
        simp only [classAccepts, classMembers, List.any_cons, List.any_nil, Bool.or_false,
          decide_eq_false_iff_not]
        omega
    | a :: d :: rest, hm, hn =>
      obtain ⟨h1, h2⟩ := hm a (by simp)
      rw [classScan_eq, classScanBody]
      simp only [peek, List.headD_cons, List.tail_cons]
      rw [if_neg (by simp [h1, h2])]
      by_cases hd : d = 45
      · rw [if_pos hd]
        match rest, hm, hn with
        | [], _, _ =>
          left
          simp [classAccepts, classMembers, hd]
        | b :: rest2, hm, hn =>
          obtain ⟨_, h4⟩ := hm b (by simp)
          simp only [List.headD_cons, List.tail_cons]
          rw [if_neg h4]
          by_cases hr : ((if nocase = true then lw a else a) ≤ c ∧
              c ≤ (if nocase = true then lw b else b)) ∨
              ((if nocase = true then lw b else b) ≤ c ∧ c ≤ (if nocase = true then lw a else a))
          · right
            refine ⟨rest2, by rw [if_pos hr], ?_, fun x hx => by simp [hx]⟩
            simp only [classAccepts, classMembers, hd, if_true, List.any_cons, Bool.or_eq_true,
              decide_eq_true_eq]
            left; exact hr
          · rw [if_neg hr]
            simp only [List.length_cons] at hn
            rcases ih rest2.length (by omega) rest2 (fun y hy => hm y (by simp [hy])) rfl with
              ⟨h5, h6⟩ | ⟨q, h5, h6, h7⟩
            · left
              refine ⟨h5, ?_⟩
              simp only [classAccepts, classMembers, hd, if_true, List.any_cons,
                Bool.or_eq_false_iff, decide_eq_false_iff_not]
              exact ⟨hr, h6⟩
            · right
              refine ⟨q, h5, ?_, fun x hx => by simp [h7 x hx]⟩
              simp only [classAccepts, classMembers, hd, if_true, List.any_cons, Bool.or_eq_true,
                decide_eq_true_eq]
              right; exact h6
      · rw [if_neg hd]
        by_cases hs : (if nocase = true then lw a else a) = c
        · right
          refine ⟨d :: rest, by rw [if_pos hs], ?_, fun x hx => by simp [List.mem_cons.1 hx]⟩
          simp only [classAccepts, classMembers_plain a d rest hd, List.any_cons,
            Bool.or_eq_true, decide_eq_true_eq]
          left; omega
        · rw [if_neg hs]
          simp only [List.length_cons] at hn
          rcases ih (d :: rest).length (by simp only [List.length_cons]; omega) (d :: rest)
              (fun y hy => hm y (by simp [List.mem_cons.1 hy])) rfl with
            ⟨h5, h6⟩ | ⟨q, h5, h6, h7⟩
          · left
            refine ⟨h5, ?_⟩
            simp only [classAccepts, classMembers_plain a d rest hd, List.any_cons,
              Bool.or_eq_false_iff, decide_eq_false_iff_not]
            exact ⟨by omega, h6⟩
          · right
            refine ⟨q, h5, ?_, fun x hx => by simp [List.mem_cons.1 (h7 x hx)]⟩
            simp only [classAccepts, classMembers_plain a d rest hd, List.any_cons,
              Bool.or_eq_true, decide_eq_true_eq]
            right; exact h6

/-- A class that is not closed before the end of the pattern consumes the
character when a member accepts it, the end of the pattern standing for the
closing `]`, and fails otherwise. -/
theorem match2_open_class (lw : Nat → Nat) (nocase : Bool) (c : Nat) (s m : List Nat)
    (hc : c ≠ 0) (hm : ∀ x ∈ m, x ≠ 93 ∧ x ≠ 0) :
    Exp_StringCaseMatch2 lw (c :: s) (91 :: m) nocase
      = if classAccepts lw nocase c m = true then 1 else -1 := by
  rw [match2_class lw nocase c s m hc]
  rcases classScan_accepts lw nocase c m hm with ⟨h1, h2⟩ | ⟨q, h1, h2, h3⟩
  · rw [h1, h2]; rfl
  · rw [h1, h2, if_pos rfl]
    simp only
    rw [classSkip_open q (fun x hx => hm x (h3 x hx)), match2_end lw nocase s [] rfl]
    rfl

/-! ## Further facts on the search and on ordinary patterns -/

/-- A match at offset 0 is returned at once. -/
theorem search_zero (lw : Nat → Nat) (nocase : Bool) (s pattern : List Nat)
    (h1 : peek pattern ≠ 94) (h : Exp_StringCaseMatch2 lw s pattern nocase ≠ -1) :
    Exp_StringCaseMatch lw s pattern nocase = (Exp_StringCaseMatch2 lw s pattern nocase, 0) := by
  have hb := match2_bounds lw s pattern nocase
  have h0 : 0 ≤ Exp_StringCaseMatch2 lw s pattern nocase := by omega
  have hd : decide (peek pattern = 94) = false := by simp [h1]
  unfold Exp_StringCaseMatch
  simp only [ge_iff_le, hd, Bool.false_eq_true, if_false]
  rw [if_pos h0]

/-- A pattern of ordinary characters does not match a shorter string. -/
theorem match2_literal_short (lw : Nat → Nat) (nocase : Bool) (p : List Nat)
    (hp : ∀ x ∈ p, ordinary x) :
    ∀ t : List Nat, t.length < p.length → Exp_StringCaseMatch2 lw t p nocase = -1 := by
  induction p with
  | nil => intro t ht; simp at ht
  | cons x p ih =>
    intro t ht
    obtain ⟨h0, h1, h3, h4, h5, h6, _⟩ := hp x (by simp)
    cases t with
    | nil => exact match2_empty lw nocase [] x p rfl h0 h1 (fun h => h6 h.1)
    | cons c t =>
      by_cases hc : c = 0
      · subst hc
        exact match2_empty lw nocase (0 :: t) x p rfl h0 h1 (fun h => h6 h.1)
      · rw [match2_lit lw nocase c x t p hc h0 h1 (fun h => h6 h.1) h3 h4 h5,
          ih (fun y hy => hp y (by simp [hy])) t (by simpa using ht)]
        split <;> rfl

/-- A pattern of ordinary characters, matched with the case folded against a
string of its length without the code point 0, matches exactly when the
characters agree after folding. -/
theorem match2_literal_fold (lw : Nat → Nat) (p : List Nat) (hp : ∀ x ∈ p, ordinary x) :
    ∀ t : List Nat, (∀ c ∈ t, c ≠ 0) → t.length = p.length →
      Exp_StringCaseMatch2 lw t p true
        = if t.map lw = p.map lw then (p.length : Int) else -1 := by
  induction p with
  | nil =>
    intro t _ ht
    have : t = [] := List.eq_nil_of_length_eq_zero (by simpa using ht)
    subst this
    rw [match2_end lw true [] [] rfl]; simp
  | cons x p ih =>
    intro t hz ht
    obtain ⟨h0, h1, h3, h4, h5, h6, _⟩ := hp x (by simp)
    cases t with
    | nil => simp at ht
    | cons c t =>
      have hc : c ≠ 0 := hz c (by simp)
      rw [match2_lit lw true c x t p hc h0 h1 (fun h => h6 h.1) h3 h4 h5,
        ih (fun y hy => hp y (by simp [hy])) t (fun d hd => hz d (by simp [hd]))
          (by simpa using ht)]
      simp only [mismatch, if_true, List.map_cons, List.cons.injEq, List.length_cons]
      by_cases hcx : lw c = lw x
      · simp only [hcx, ne_eq, not_true_eq_false, if_false, true_and]
        unfold addMatched
        split_ifs <;> first | rfl | contradiction | (push_cast; omega)
      · simp [hcx]

theorem map_eq_iff_getD (lw : Nat → Nat) :
    ∀ s p : List Nat, s.length = p.length →
      (s.map lw = p.map lw ↔ ∀ i, i < p.length → lw (s.getD i 0) = lw (p.getD i 0)) := by
  intro s
  induction s with
  | nil =>
    intro p hl
    have : p = [] := List.eq_nil_of_length_eq_zero (by simpa using hl.symm)
    subst this
    simp
  | cons c s ih =>
    intro p hl
    cases p with
    | nil => simp at hl
    | cons x p =>
      have hl1 : s.length = p.length := by simpa using hl
      simp only [List.map_cons, List.cons.injEq, List.length_cons, ih p hl1]
      constructor
      · rintro ⟨h1, h2⟩ i hi
        cases i with
        | zero => simpa using h1
        | succ i => simpa using h2 i (by omega)
      · intro h
        refine ⟨by simpa using h 0 (by omega), fun i hi => ?_⟩
        simpa using h (i + 1) (by omega)

theorem skipStars_replicate (j : Nat) : skipStars (List.replicate j 42) = [] := by
  induction j with
  | zero => rfl
  | succ j ih => simp [List.replicate_succ, skipStars, ih]

/-- A pattern of ordinary characters followed by a run of stars, matched with
the case kept, matches the strings it is a leading part of, and then all of
the string. -/
theorem match2_literal_stars (lw : Nat → Nat) (q : List Nat) (hq : ∀ x ∈ q, ordinary x)
    (j : Nat) :
    ∀ t : List Nat, Exp_StringCaseMatch2 lw t (q ++ List.replicate (j + 1) 42) false
      = if t.take q.length = q then (t.length : Int) else -1 := by
  induction q with
  | nil =>
    intro t
    rw [List.nil_append, List.replicate_succ, match2_star, skipStars_replicate,
      if_pos (by rfl)]
    simp
  | cons x q ih =>
    intro t
    obtain ⟨h0, h1, h3, h4, h5, h6, _⟩ := hq x (by simp)
    have ih1 := ih (fun y hy => hq y (by simp [hy]))
    rw [List.cons_append]
    cases t with
    | nil =>
      rw [match2_empty lw false [] x _ rfl h0 h1 (fun h => h6 h.1)]
      simp
    | cons c t =>
      by_cases hc : c = 0
      · subst hc
        rw [match2_empty lw false (0 :: t) x _ rfl h0 h1 (fun h => h6 h.1), if_neg]
        simp only [List.length_cons, List.take_succ_cons, List.cons.injEq, not_and]
        intro h; exact absurd h.symm h0
      · rw [match2_lit lw false c x t _ hc h0 h1 (fun h => h6 h.1) h3 h4 h5, ih1 t]
        simp only [mismatch, Bool.false_eq_true, if_false, List.length_cons, List.take_succ_cons,
          List.cons.injEq]
        by_cases hcx : c = x
        · simp only [hcx, ne_eq, not_true_eq_false, if_false, true_and]
          unfold addMatched
          split_ifs <;> first | rfl | contradiction | (push_cast; omega)
        · simp [hcx]

theorem no_zero_peek {s : List Nat} (hs : ∀ c ∈ s, c ≠ 0) : s = [] ∨ peek s ≠ 0 := by
  cases s with
  | nil => left; rfl
  | cons c t => right; exact hs c (by simp)

theorem ordinary_peek {p : List Nat} (hp : ∀ x ∈ p, ordinary x) :
    peek p ≠ 94 ∧ peek p ≠ 42 := by
  cases p with
  | nil => exact ⟨by decide, by decide⟩
  | cons x p =>
    obtain ⟨_, h1, _, _, _, _, h7⟩ := hp x (by simp)
    exact ⟨h7, h1⟩

/-! ## The positions that the backward scan tries -/

/-- The cruise stops on a position that it does not pass over. -/
theorem cruise_stop (lw : Nat → Nat) (nocase : Bool) (string : List Nat) (p : Nat) (tail : Int) :
    0 ≤ cruise lw nocase string p tail →
      ¬ (p ≠ string.getD (cruise lw nocase string p tail).toNat 0 ∧
        (nocase = true → p ≠ lw (string.getD (cruise lw nocase string p tail).toNat 0))) := by
  generalize hn : (tail + 1).toNat = n
  induction n generalizing tail with
  | zero =>
    rw [cruise_eq, cruiseBody, if_neg (by intro h; omega)]
    intro h; omega
  | succ n ih =>
    rw [cruise_eq, cruiseBody]
    split
    · exact ih (tail - 1) (by omega)
    · rename_i hc
      intro h0 h1
      exact hc ⟨h0, h1⟩

/-- What the backward scan returns, told by the positions it tries: `-1` when
the recursive call fails at every position of `1 .. tail` that the cruise
does not pass over, and otherwise `match + T + rc` at the greatest such
position `T` where the recursive call succeeds. -/
theorem starScan_tried (lw : Nat → Nat) (nocase : Bool) (string : List Nat) (p : Nat)
    (recurse : List Nat → Int) (mtch : Int) (tail : Int) :
    (starScan lw nocase string p recurse mtch tail = -1 ∧
      ∀ t : Nat, 1 ≤ t → (t : Int) ≤ tail → ¬ cruiseSkips lw nocase string p t →
        recurse (string.drop t) = -1) ∨
    (∃ T : Nat, 1 ≤ T ∧ (T : Int) ≤ tail ∧ ¬ cruiseSkips lw nocase string p T ∧
      recurse (string.drop T) ≠ -1 ∧
      starScan lw nocase string p recurse mtch tail = mtch + T + recurse (string.drop T) ∧
      ∀ t : Nat, T < t → (t : Int) ≤ tail → ¬ cruiseSkips lw nocase string p t →
        recurse (string.drop t) = -1) := by
  generalize hn : tail.toNat = n
  induction n using Nat.strong_induction_on generalizing tail with
  | _ n ih =>
    obtain ⟨hc1, _, hc3⟩ := cruise_spec lw nocase string p tail
    have hc4 := cruise_stop lw nocase string p tail
    rw [starScan_eq, starScanBody]
    simp only
    generalize htail1 :
      (if p ≠ 91 ∧ p ≠ 63 ∧ p ≠ 92 then cruise lw nocase string p tail else tail) = tail1
    have h1 : tail1 ≤ tail := by
      rw [← htail1]; split
      · exact hc1
      · exact le_refl _
    have hskip : ∀ t : Nat, tail1 < t → (t : Int) ≤ tail → cruiseSkips lw nocase string p t := by
      intro t ht1 ht2
      by_cases hp : p ≠ 91 ∧ p ≠ 63 ∧ p ≠ 92
      · rw [if_pos hp] at htail1
        rw [← htail1] at ht1
        exact ⟨hp, hc3 t ht1 ht2⟩
      · rw [if_neg hp] at htail1
        omega
    have hstop : 0 ≤ tail1 → ¬ cruiseSkips lw nocase string p tail1.toNat := by
      intro h0 hsk
      by_cases hp : p ≠ 91 ∧ p ≠ 63 ∧ p ≠ 92
      · rw [if_pos hp] at htail1
        rw [← htail1] at h0 hsk
        exact hc4 h0 hsk.2
      · exact hp hsk.1
    by_cases c1 : tail1 ≤ 0
    · rw [if_pos c1]
      left
      refine ⟨rfl, ?_⟩
      intro t ht1 ht2 hns
      exact absurd (hskip t (by omega) ht2) hns
    · rw [if_neg c1]
      have hT : ((tail1.toNat : Nat) : Int) = tail1 := by omega
      by_cases c2 : recurse (string.drop tail1.toNat) ≠ -1
      · rw [if_pos c2]
        right
        refine ⟨tail1.toNat, by omega, by omega, hstop (by omega), c2, by rw [hT], ?_⟩
        intro t ht1 ht2 hns
        exact absurd (hskip t (by omega) ht2) hns
      · rw [if_neg c2, if_neg (by omega)]
        have c3 : ¬ (tail1 - 1 < 0) := by omega
        rw [if_neg c3]
        rcases ih (tail1 - 1).toNat (by omega) (tail1 - 1) rfl with
          ⟨hr, hall⟩ | ⟨T, hT1, hT2, hT3, hT4, hT5, hT6⟩
        · left
          refine ⟨hr, ?_⟩
          intro t ht1 ht2 hns
          by_cases hlt : (t : Int) ≤ tail1 - 1
          · exact hall t ht1 hlt hns
          · by_cases heq : (t : Int) = tail1
            · have hte : t = tail1.toNat := by omega
              rw [hte]; exact not_not.mp c2
            · exact absurd (hskip t (by omega) ht2) hns
        · right
          refine ⟨T, hT1, by omega, hT3, hT4, hT5, ?_⟩
          intro t ht1 ht2 hns
          by_cases hlt : (t : Int) ≤ tail1 - 1
          · exact hT6 t ht1 hlt hns
          · by_cases heq : (t : Int) = tail1
            · have hte : t = tail1.toNat := by omega
              rw [hte]; exact not_not.mp c2
            · exact absurd (hskip t (by omega) ht2) hns

theorem cruiseSkips_drop (lw : Nat → Nat) (nocase : Bool) (s : List Nat) (p k t : Nat) :
    cruiseSkips lw nocase (s.drop k) p t ↔ cruiseSkips lw nocase s p (k + t) := by
  unfold cruiseSkips
  have h : (s.drop k).getD t 0 = s.getD (k + t) 0 := by
    simp [List.getD_eq_getElem?_getD, List.getElem?_drop]
  rw [h]

theorem cruiseSkips_append (lw : Nat → Nat) (nocase : Bool) (s u : List Nat) (p t : Nat)
    (ht : t < s.length) :
    cruiseSkips lw nocase (s ++ u) p t ↔ cruiseSkips lw nocase s p t := by
  unfold cruiseSkips
  have h : (s ++ u).getD t 0 = s.getD t 0 := by
    simp [List.getD_eq_getElem?_getD, List.getElem?_append_left ht]
  rw [h]

theorem peek_drop (s : List Nat) (t : Nat) : peek (s.drop t) = s.getD t 0 := by
  induction s generalizing t with
  | nil => simp [peek]
  | cons c s ih =>
    cases t with
    | zero => simp [peek]
    | succ t => simpa using ih t

/-- The star branch told by the positions it tries, for the pattern `*rest`
with `q` the pattern after the run of stars and `q` not empty. -/
theorem star_tried (lw : Nat → Nat) (nocase : Bool) (u rest : List Nat)
    (hq0 : peek (skipStars rest) ≠ 0) :
    (Exp_StringCaseMatch2 lw u (42 :: rest) nocase = -1 ∧
      ∀ t : Nat, 1 ≤ t → t < u.length →
        ¬ cruiseSkips lw nocase u
          (if nocase = true then lw (peek (skipStars rest)) else peek (skipStars rest)) t →
        Exp_StringCaseMatch2 lw (u.drop t) (skipStars rest) nocase = -1) ∨
    (∃ T : Nat, 1 ≤ T ∧ T < u.length ∧
      ¬ cruiseSkips lw nocase u
          (if nocase = true then lw (peek (skipStars rest)) else peek (skipStars rest)) T ∧
      Exp_StringCaseMatch2 lw (u.drop T) (skipStars rest) nocase ≠ -1 ∧
      Exp_StringCaseMatch2 lw u (42 :: rest) nocase ≠ -1) := by
  rw [match2_star, if_neg hq0]
  rcases starScan_tried lw nocase u
      (if nocase = true then lw (peek (skipStars rest)) else peek (skipStars rest))
      (fun tail => Exp_StringCaseMatch2 lw tail (skipStars rest) nocase) 0
      ((u.length : Int) - 1) with ⟨hr, hall⟩ | ⟨T, hT1, hT2, hT3, hT4, hT5, _⟩
  · left
    exact ⟨hr, fun t ht1 ht2 hns => hall t ht1 (by omega) hns⟩
  · right
    refine ⟨T, hT1, by omega, hT3, hT4, ?_⟩
    rw [hT5]
    have hb := match2_bounds lw (u.drop T) (skipStars rest) nocase
    have hT6 : Exp_StringCaseMatch2 lw (u.drop T) (skipStars rest) nocase ≠ -1 := hT4
    show (0 : Int) + T + Exp_StringCaseMatch2 lw (u.drop T) (skipStars rest) nocase ≠ -1
    omega

/-- When the pattern `*rest` fails on a string, it fails on every suffix of
the string. -/
theorem star_fail_suffix (lw : Nat → Nat) (nocase : Bool) (s rest : List Nat)
    (h : Exp_StringCaseMatch2 lw s (42 :: rest) nocase = -1) :
    ∀ k, Exp_StringCaseMatch2 lw (s.drop k) (42 :: rest) nocase = -1 := by
  intro k
  by_cases hq0 : peek (skipStars rest) = 0
  · rw [match2_star, if_pos hq0] at h
    omega
  · rcases star_tried lw nocase s rest hq0 with ⟨_, hall⟩ | ⟨_, _, _, _, _, hne⟩
    · rcases star_tried lw nocase (s.drop k) rest hq0 with ⟨hr, _⟩ | ⟨T, hT1, hT2, hT3, hT4, _⟩
      · exact hr
      · rw [List.length_drop] at hT2
        rw [List.drop_drop] at hT4
        rw [cruiseSkips_drop] at hT3
        exact absurd (hall (k + T) (by omega) (by omega) hT3) hT4
    · exact absurd h hne

theorem search_star (lw : Nat → Nat) (nocase : Bool) (s rest : List Nat) :
    Exp_StringCaseMatch lw s (42 :: rest) nocase
      = (Exp_StringCaseMatch2 lw s (42 :: rest) nocase, 0) := by
  unfold Exp_StringCaseMatch
  have hb := match2_bounds lw s (42 :: rest) nocase
  have h42 : peek (42 :: rest) = 42 := rfl
  simp only [h42, ge_iff_le]
  rw [show decide ((42 : Nat) = 94) = false from rfl]
  simp only [Bool.false_eq_true, if_false, Bool.not_false, Bool.true_and, decide_True, if_true]
  split
  · rfl
  · have h3 : Exp_StringCaseMatch2 lw s (42 :: rest) nocase = -1 := by omega
    rw [h3]

/-! ## Growth of the string -/

theorem mem_skipStars {x : Nat} {r : List Nat} (h : x ∈ skipStars r) : x ∈ r := by
  induction r with
  | nil => simp [skipStars] at h
  | cons c r ih =>
    unfold skipStars at h
    split at h
    · exact List.mem_cons_of_mem _ (ih h)
    · exact h

theorem mem_classSkip {x : Nat} {q : List Nat} (h : x ∈ classSkip q) : x ∈ q := by
  induction q with
  | nil => simp [classSkip] at h
  | cons c q ih =>
    unfold classSkip at h
    split at h
    · exact List.mem_cons_of_mem _ h
    · split at h
      · exact h
      · exact List.mem_cons_of_mem _ (ih h)

theorem mem_classScan (lw : Nat → Nat) (nocase : Bool) (ch : Nat) (pattern q : List Nat)
    (h : classScan lw nocase ch pattern = some q) : ∀ x ∈ q, x ∈ pattern := by
  generalize hn : pattern.length = n
  induction n using Nat.strong_induction_on generalizing pattern q with
  | _ n ih =>
    rw [classScan_eq, classScanBody] at h
    split at h
    · cases h
    · rename_i h0
      have h1 := peek_ne_zero_length (fun hz => h0 (Or.inr hz))
      have h2 := List.length_tail pattern.tail
      have h3 := List.length_tail pattern.tail.tail
      have m1 : ∀ x ∈ pattern.tail, x ∈ pattern := fun x hx => List.mem_of_mem_tail hx
      have m3 : ∀ x ∈ pattern.tail.tail.tail, x ∈ pattern :=
        fun x hx => m1 x (List.mem_of_mem_tail (List.mem_of_mem_tail hx))
      simp only at h
      repeat' split at h
      all_goals
        first
        | (cases h; assumption)
        | (intro x hx; exact m3 x (ih _ (by omega) _ q h rfl x hx))
        | (intro x hx; exact m1 x (ih _ (by omega) _ q h rfl x hx))
        | cases h

theorem addMatched_ne (r : Int) (h : r = -1 ∨ 0 ≤ r) : addMatched 1 r ≠ -1 ↔ r ≠ -1 := by
  unfold addMatched
  split
  · rename_i h1; simp [h1]
  · rename_i h1
    constructor
    · intro _; exact h1
    · intro _; omega

/-- A pattern without the character `$` that matches a string matches every
string that begins with it. -/
theorem match2_mono (lw : Nat → Nat) (nocase : Bool) (p : List Nat) :
    (∀ x ∈ p, x ≠ 36) → ∀ u t : List Nat,
      Exp_StringCaseMatch2 lw u p nocase ≠ -1 →
      Exp_StringCaseMatch2 lw (u ++ t) p nocase ≠ -1 := by
  generalize hn : p.length = n
  induction n using Nat.strong_induction_on generalizing p with
  | _ n ih =>
    intro hp u t h
    by_cases h0 : peek p = 0
    · rw [match2_end lw nocase _ p h0]; decide
    obtain ⟨x, rest, hxr, hx0⟩ := peek_ne_zero_cons h0
    subst hxr
    have hx36 : x ≠ 36 := hp x (by simp)
    have hrest : ∀ y ∈ rest, y ≠ 36 := fun y hy => hp y (by simp [hy])
    simp only [List.length_cons] at hn
    have hadd : ∀ (v : List Nat) (q : List Nat),
        (addMatched 1 (Exp_StringCaseMatch2 lw v q nocase) ≠ -1 ↔
          Exp_StringCaseMatch2 lw v q nocase ≠ -1) := by
      intro v q
      have hb := match2_bounds lw v q nocase
      exact addMatched_ne _ (by omega)
    by_cases hx42 : x = 42
    · subst hx42
      by_cases hq0 : peek (skipStars rest) = 0
      · rw [match2_star, if_pos hq0]; omega
      · have hl := skipStars_length_le rest
        have hq36 : ∀ y ∈ skipStars rest, y ≠ 36 := fun y hy => hrest y (mem_skipStars hy)
        rcases star_tried lw nocase u rest hq0 with ⟨hr, _⟩ | ⟨T, hT1, hT2, hT3, hT4, _⟩
        · exact absurd hr h
        · rcases star_tried lw nocase (u ++ t) rest hq0 with ⟨_, hall⟩ | ⟨_, _, _, _, _, hne⟩
          · exfalso
            have h5 := hall T hT1 (by rw [List.length_append]; omega)
              (by rw [cruiseSkips_append _ _ _ _ _ _ hT2]; exact hT3)
            rw [List.drop_append_of_le_length (by omega)] at h5
            exact ih _ (by omega) (skipStars rest) rfl hq36 (u.drop T) t hT4 h5
          · exact hne
    · have hnd : ¬ (x = 36 ∧ peek rest = 0) := fun hh => hx36 hh.1
      by_cases hz : peek u = 0
      · exact absurd (match2_empty lw nocase u x rest hz hx0 hx42 hnd) h
      obtain ⟨c, u1, hcu, hc⟩ := peek_ne_zero_cons hz
      subst hcu
      rw [List.cons_append]
      by_cases hx63 : x = 63
      · subst hx63
        rw [match2_quest lw nocase c _ rest hc, hadd] at h ⊢
        exact ih _ (by omega) rest rfl hrest u1 t h
      by_cases hx91 : x = 91
      · subst hx91
        rw [match2_class lw nocase c _ rest hc] at h ⊢
        cases hcls : classScan lw nocase c rest with
        | none => rw [hcls] at h; exact absurd rfl h
        | some q =>
          rw [hcls] at h
          simp only at h ⊢
          rw [hadd] at h ⊢
          have h4 := classScan_length_lt _ _ _ _ _ hcls
          have h5 := classSkip_length_le q
          exact ih _ (by omega) (classSkip q) rfl
            (fun y hy => hrest y (mem_classScan _ _ _ _ _ hcls y (mem_classSkip hy))) u1 t h
      by_cases hx92 : x = 92
      · subst hx92
        rw [match2_esc lw nocase c _ rest hc] at h ⊢
        by_cases hr0 : peek rest = 0
        · rw [if_pos hr0] at h; exact absurd rfl h
        · rw [if_neg hr0] at h ⊢
          by_cases hm : mismatch lw nocase c (peek rest)
          · rw [if_pos hm] at h; exact absurd rfl h
          · rw [if_neg hm] at h ⊢
            rw [hadd] at h ⊢
            have h6 := List.length_tail rest
            exact ih _ (by omega) rest.tail rfl
              (fun y hy => hrest y (List.mem_of_mem_tail hy)) u1 t h
      · rw [match2_lit lw nocase c x _ rest hc hx0 hx42 hnd hx63 hx91 hx92] at h ⊢
        by_cases hm : mismatch lw nocase c x
        · rw [if_pos hm] at h; exact absurd rfl h
        · rw [if_neg hm] at h ⊢
          rw [hadd] at h ⊢
          exact ih _ (by omega) rest rfl hrest u1 t h

/-! ## Budgets of the loops -/

theorem Exp_StringCaseMatch2Body_eq_Body2 (lw : Nat → Nat) (nocase : Bool)
    (self : List Nat → List Nat → Int → Int) (string pattern : List Nat) (mtch : Int) :
    Exp_StringCaseMatch2Body lw nocase self string pattern mtch
      = Exp_StringCaseMatch2Body2 lw nocase self self string pattern mtch := rfl

/-- The backward scan uses the recursive call only at the split points
`1 .. tail`. -/
theorem starScan_congr (lw : Nat → Nat) (nocase : Bool) (string : List Nat) (p : Nat)
    (f g : List Nat → Int) (mtch : Int) (tail : Int)
    (h : ∀ t : Nat, 1 ≤ t → (t : Int) ≤ tail → f (string.drop t) = g (string.drop t)) :
    starScan lw nocase string p f mtch tail = starScan lw nocase string p g mtch tail := by
  generalize hn : tail.toNat = n
  induction n using Nat.strong_induction_on generalizing tail with
  | _ n ih =>
    have hc1 := cruise_le lw nocase string p tail
    rw [starScan_eq, starScanBody, starScan_eq lw nocase string p g, starScanBody]
    simp only
    generalize htail1 :
      (if p ≠ 91 ∧ p ≠ 63 ∧ p ≠ 92 then cruise lw nocase string p tail else tail) = tail1
    have h1 : tail1 ≤ tail := by
      rw [← htail1]; split
      · exact hc1
      · exact le_refl _
    by_cases c1 : tail1 ≤ 0
    · rw [if_pos c1, if_pos c1]
    · rw [if_neg c1, if_neg c1]
      have hfg : f (string.drop tail1.toNat) = g (string.drop tail1.toNat) :=
        h tail1.toNat (by omega) (by omega)
      rw [hfg]
      by_cases c2 : g (string.drop tail1.toNat) ≠ -1
      · rw [if_pos c2, if_pos c2]
      · have c3 : ¬ (tail1 - 1 < 0) := by omega
        have c4 : ¬ tail1 = 0 := by omega
        simp only [if_neg c2, if_neg c3, if_neg c4]
        exact ih (tail1 - 1).toNat (by omega) (tail1 - 1)
          (fun t ht1 ht2 => h t ht1 (by omega)) rfl

/-- One iteration uses the next iteration only on a shorter pattern and a
string that is not longer, and the recursive call of the `*` branch only on a
shorter pattern and a proper suffix of the string (`tail > string`). -/
theorem Exp_StringCaseMatch2Body2_congr (lw : Nat → Nat) (nocase : Bool)
    (n1 c1 n2 c2 : List Nat → List Nat → Int → Int) (string pattern : List Nat) (mtch : Int)
    (hn : ∀ s q m, q.length < pattern.length → s.length ≤ string.length → n1 s q m = n2 s q m)
    (hc : ∀ T : Nat, 1 ≤ T → T < string.length → ∀ q, q.length < pattern.length →
      c1 (string.drop T) q 0 = c2 (string.drop T) q 0) :
    Exp_StringCaseMatch2Body2 lw nocase n1 c1 string pattern mtch
      = Exp_StringCaseMatch2Body2 lw nocase n2 c2 string pattern mtch := by
  unfold Exp_StringCaseMatch2Body2
  by_cases h0 : peek pattern = 0
  · simp only [if_pos h0]
  · simp only [if_neg h0]
    have h1 := peek_ne_zero_length h0
    have h2 := skipStars_length_le pattern.tail
    have h3 := List.length_tail pattern.tail
    have h4 : string.tail.length ≤ string.length := by rw [List.length_tail]; omega
    have hstar : starScan lw nocase string
          (if nocase = true then lw (peek (skipStars pattern.tail))
            else peek (skipStars pattern.tail))
          (fun tail => c1 tail (skipStars pattern.tail) 0) mtch ((string.length : Int) - 1)
        = starScan lw nocase string
          (if nocase = true then lw (peek (skipStars pattern.tail))
            else peek (skipStars pattern.tail))
          (fun tail => c2 tail (skipStars pattern.tail) 0) mtch ((string.length : Int) - 1) := by
      apply starScan_congr
      intro t ht1 ht2
      exact hc t ht1 (by omega) _ (by omega)
    have hcls : (match classScan lw nocase (peek string) pattern.tail with
        | none => (-1 : Int)
        | some pattern1 => n1 string.tail (classSkip pattern1) (mtch + 1))
        = (match classScan lw nocase (peek string) pattern.tail with
        | none => (-1 : Int)
        | some pattern1 => n2 string.tail (classSkip pattern1) (mtch + 1)) := by
      cases hcs : classScan lw nocase (peek string) pattern.tail with
      | none => rfl
      | some pattern1 =>
        have h5 := classScan_length_lt _ _ _ _ _ hcs
        have h6 := classSkip_length_le pattern1
        exact hn _ _ _ (by omega) h4
    have hlit : n1 string.tail (if peek pattern = 92 then pattern.tail else pattern).tail (mtch + 1)
        = n2 string.tail (if peek pattern = 92 then pattern.tail else pattern).tail (mtch + 1) := by
      apply hn _ _ _ _ h4
      split
      · omega
      · exact h1
    rw [hstar, hcls, hn string.tail pattern.tail (mtch + 1) h1 h4, hlit]

/-- With more iterations than the pattern has characters and a nesting of
calls as deep as the string is long, the loop never reaches `beyond`. -/
theorem depth_enough (lw : Nat → Nat) (nocase : Bool)
    (beyond : List Nat → List Nat → Int → Int) :
    ∀ (fuel depth : Nat) (s p : List Nat) (m : Int), p.length < fuel → s.length ≤ depth →
      Exp_StringCaseMatch2Depth lw nocase beyond fuel depth s p m
        = Exp_StringCaseMatch2Loop lw nocase s p m := by
  intro fuel
  induction fuel with
  | zero => intro depth s p m hf; omega
  | succ fuel ih =>
    intro depth s p m hf hd
    rw [Exp_StringCaseMatch2Loop_eq, Exp_StringCaseMatch2Body_eq_Body2]
    show Exp_StringCaseMatch2Body2 lw nocase _ _ s p m = _
    apply Exp_StringCaseMatch2Body2_congr
    · intro s1 q m1 hq hs1
      exact ih depth s1 q m1 (by omega) (by omega)
    · intro T hT1 hT2 q hq
      rw [if_neg (by omega)]
      exact ih (depth - 1) (s.drop T) q 0 (by omega) (by rw [List.length_drop]; omega)

/-- The backward scan leaves within `tail - string + 1` iterations, whatever
lies beyond them: every iteration lowers the split point. -/
theorem starScan_iterate (lw : Nat → Nat) (nocase : Bool) (string : List Nat) (p : Nat)
    (recurse : List Nat → Int) (mtch : Int) (beyond : Int → Int) :
    ∀ (n : Nat) (tail : Int), tail.toNat < n →
      (starScanBody lw nocase string p recurse mtch)^[n] beyond tail
        = starScan lw nocase string p recurse mtch tail := by
  intro n
  induction n with
  | zero => intro tail h; omega
  | succ n ih =>
    intro tail h
    rw [Function.iterate_succ_apply', starScan_eq]
    apply starScanBody_congr
    intro t h0 ht
    exact ih t (by omega)

/-- The backward cruise leaves within `tail - string + 2` iterations. -/
theorem cruise_iterate (lw : Nat → Nat) (nocase : Bool) (string : List Nat) (p : Nat)
    (beyond : Int → Int) :
    ∀ (n : Nat) (tail : Int), (tail + 1).toNat < n →
      (cruiseBody lw nocase string p)^[n] beyond tail = cruise lw nocase string p tail := by
  intro n
  induction n with
  | zero => intro tail h; omega
  | succ n ih =>
    intro tail h
    rw [Function.iterate_succ_apply', cruise_eq]
    apply cruiseBody_congr
    intro h0
    exact ih (tail - 1) (by omega)

/-- The member loop of a class leaves within `length pattern + 1`
iterations. -/
theorem classScan_iterate (lw : Nat → Nat) (nocase : Bool) (ch : Nat)
    (beyond : List Nat → Option (List Nat)) :
    ∀ (n : Nat) (pattern : List Nat), pattern.length < n →
      (classScanBody lw nocase ch)^[n] beyond pattern = classScan lw nocase ch pattern := by
  intro n
  induction n with
  | zero => intro pattern h; omega
  | succ n ih =>
    intro pattern h
    rw [Function.iterate_succ_apply', classScan_eq]
    apply classScanBody_congr
    intro q hq
    exact ih q (by omega)

/-! ## The claims -/

/-- C1 (result bound).  `Exp_StringCaseMatch` returns `-1` (no match) or a
count `length >= 0` with `start_offset + length <= strlen`, for every string
(also one that holds the code point 0), every pattern and both case settings. -/
theorem C1_result_bound (lw : Nat → Nat) (s p : List Nat) (nocase : Bool) :
    (Exp_StringCaseMatch lw s p nocase).1 = -1 ∨
    (0 ≤ (Exp_StringCaseMatch lw s p nocase).1 ∧
      ((Exp_StringCaseMatch lw s p nocase).2 : Int) + (Exp_StringCaseMatch lw s p nocase).1
        ≤ s.length) := by
  rcases search_cases lw nocase s p with h2 | ⟨k, hk, h3, h4⟩
  · left; rw [h2]
  · right
    rw [h4]
    have := match2_bounds lw (s.drop k) (if decide (peek p = 94) = true then p.tail else p) nocase
    simp only [List.length_drop] at this
    simp only
    omega

/-- C2 (front anchor).  For a pattern `^q` the search is the single call of
`Exp_StringCaseMatch2` on `q` at offset 0: its count (or `-1`) is returned and
the reported offset is 0; `search("banana", "^ban") = (3, 0)` and
`search("xbanana", "^ban")` is no match. -/
theorem C2_front_anchor :
    (∀ (lw : Nat → Nat) (s q : List Nat) (nocase : Bool),
      Exp_StringCaseMatch lw s (94 :: q) nocase = (Exp_StringCaseMatch2 lw s q nocase, 0)) ∧
    Exp_StringCaseMatch asciiLower (cp "banana") (cp "^ban") false = (3, 0) ∧
    Exp_StringCaseMatch asciiLower (cp "xbanana") (cp "^ban") false = (-1, 0) :=
  ⟨fun lw s q nocase => search_caret lw nocase s q, by decide, by decide⟩

/-- C3 (leftmost start).  For a string without the code point 0 and a pattern
that begins neither with `^` nor with `*`: the search returns the count `n`
at offset `k` exactly when `k` is the smallest start offset among `0` and
`1 .. strlen - 1` where `Exp_StringCaseMatch2` succeeds and `n` is its count
there; it returns no match exactly when `Exp_StringCaseMatch2` fails at every
one of those offsets. -/
theorem C3_leftmost_start (lw : Nat → Nat) (nocase : Bool) (s p : List Nat)
    (hs : ∀ c ∈ s, c ≠ 0) (h1 : peek p ≠ 94) (h2 : peek p ≠ 42) :
    (∀ (n : Int) (k : Nat), n ≠ -1 →
      (Exp_StringCaseMatch lw s p nocase = (n, k) ↔
        ((k = 0 ∨ k < s.length) ∧ Exp_StringCaseMatch2 lw (s.drop k) p nocase = n ∧
          ∀ j, j < k → Exp_StringCaseMatch2 lw (s.drop j) p nocase = -1))) ∧
    ((Exp_StringCaseMatch lw s p nocase).1 = -1 ↔
      ∀ k, (k = 0 ∨ k < s.length) → Exp_StringCaseMatch2 lw (s.drop k) p nocase = -1) := by
  have hs0 : s = [] ∨ peek s ≠ 0 := by
    cases s with
    | nil => left; rfl
    | cons c t => right; exact hs c (by simp)
  rcases search_spec lw nocase s p hs0 h1 h2 with ⟨hr, hall⟩ | ⟨k0, hk1, hk2, hk3, hk4⟩
  · refine ⟨?_, ?_⟩
    · intro n k hn
      constructor
      · intro h
        rw [hr] at h
        cases h
        exact absurd rfl hn
      · rintro ⟨hk, hm, _⟩
        rw [hall k hk] at hm
        exact absurd hm.symm hn
    · rw [hr]
      exact ⟨fun _ => hall, fun _ => rfl⟩
  · refine ⟨?_, ?_⟩
    · intro n k hn
      constructor
      · intro h
        rw [hk4] at h
        cases h
        exact ⟨hk1, rfl, hk3⟩
      · rintro ⟨hk, hm, hmin⟩
        have hkk : k = k0 := by
          rcases Nat.lt_trichotomy k k0 with hlt | heq | hgt
          · have := hk3 k hlt
            rw [hm] at this
            exact absurd this hn
          · exact heq
          · exact absurd (hmin k0 hgt) hk2
        subst hkk
        rw [hk4, hm]
    · rw [hk4]
      constructor
      · intro h
        exact absurd h hk2
      · intro h
        exact absurd (h k0 hk1) hk2

/-- The leftmost start on `xxabc` with the pattern `a?c`: count 3 at offset 2. -/
theorem C3_leftmost_start_witness :
    (∀ c ∈ cp "xxabc", c ≠ 0) ∧ peek (cp "a?c") ≠ 94 ∧ peek (cp "a?c") ≠ 42 ∧
    (Exp_StringCaseMatch asciiLower (cp "xxabc") (cp "a?c") false = (3, 2) ↔
      ((2 = 0 ∨ 2 < (cp "xxabc").length) ∧
        Exp_StringCaseMatch2 asciiLower ((cp "xxabc").drop 2) (cp "a?c") false = 3 ∧
        ∀ j, j < 2 →
          Exp_StringCaseMatch2 asciiLower ((cp "xxabc").drop j) (cp "a?c") false = -1)) :=
  ⟨by decide, by decide, by decide,
    (C3_leftmost_start asciiLower false (cp "xxabc") (cp "a?c") (by decide) (by decide)
      (by decide)).1 3 2 (by decide)⟩

/-- C4 (literal patterns are substring search).  For a string without the
code point 0 and a pattern of ordinary characters, with the case kept: the
search returns the length of the pattern at the index of its first occurrence
in the string, and no match exactly when the pattern does not occur in the
string. -/
theorem C4_literal_substring (lw : Nat → Nat) (s p : List Nat) (hs : ∀ c ∈ s, c ≠ 0)
    (hp : ∀ x ∈ p, ordinary x) :
    (∀ k, occursAt p s k → (∀ j, j < k → ¬ occursAt p s j) →
      Exp_StringCaseMatch lw s p false = ((p.length : Int), k)) ∧
    ((Exp_StringCaseMatch lw s p false).1 = -1 ↔ ¬ ∃ k, occursAt p s k) := by
  have hs0 : s = [] ∨ peek s ≠ 0 := by
    cases s with
    | nil => left; rfl
    | cons c t => right; exact hs c (by simp)
  have hp1 : peek p ≠ 94 ∧ peek p ≠ 42 := by
    cases p with
    | nil => exact ⟨by decide, by decide⟩
    | cons x p =>
      obtain ⟨_, h1, _, _, _, _, h7⟩ := hp x (by simp)
      exact ⟨h7, h1⟩
  have hlit := match2_literal lw p hp
  have hiff : ∀ k, Exp_StringCaseMatch2 lw (s.drop k) p false ≠ -1 ↔ occursAt p s k := by
    intro k
    rw [hlit]
    unfold occursAt
    split
    · rename_i h; simp only [h, iff_true]; omega
    · rename_i h; simp [h]
  have hval : ∀ k, occursAt p s k → Exp_StringCaseMatch2 lw (s.drop k) p false = p.length := by
    intro k hk
    rw [hlit]
    exact if_pos hk
  have hcand : ∀ k, occursAt p s k → ∃ j, j ≤ k ∧ (j = 0 ∨ j < s.length) ∧ occursAt p s j := by
    intro k hk
    by_cases hlt : k < s.length
    · exact ⟨k, le_refl _, Or.inr hlt, hk⟩
    · refine ⟨0, Nat.zero_le _, Or.inl rfl, ?_⟩
      unfold occursAt at hk ⊢
      rw [List.drop_of_length_le (by omega)] at hk
      simp only [List.take_nil] at hk
      rw [← hk]; rfl
  rcases search_spec lw false s p hs0 hp1.1 hp1.2 with ⟨hr, hall⟩ | ⟨k0, hk1, hk2, hk3, hk4⟩
  · have hnone : ¬ ∃ k, occursAt p s k := by
      rintro ⟨k, hk⟩
      obtain ⟨j, _, hj1, hj2⟩ := hcand k hk
      exact (hiff j).2 hj2 (hall j hj1)
    refine ⟨fun k hk _ => absurd ⟨k, hk⟩ hnone, ?_⟩
    rw [hr]
    exact ⟨fun _ => hnone, fun _ => rfl⟩
  · have hocc : occursAt p s k0 := (hiff k0).1 hk2
    refine ⟨?_, ?_⟩
    · intro k hk hmin
      have hkk : k = k0 := by
        rcases Nat.lt_trichotomy k k0 with hlt | heq | hgt
        · exact absurd (hk3 k hlt) ((hiff k).2 hk)
        · exact heq
        · exact absurd hocc (hmin k0 hgt)
      subst hkk
      rw [hk4, hval k hocc]
    · rw [hk4]
      constructor
      · intro h; exact absurd h hk2
      · intro h; exact absurd ⟨k0, hocc⟩ h

/-- The pattern `abc` first occurs in `xxabc` at index 2. -/
theorem C4_literal_substring_witness :
    (∀ c ∈ cp "xxabc", c ≠ 0) ∧ (∀ x ∈ cp "abc", ordinary x) ∧ occursAt (cp "abc") (cp "xxabc") 2 ∧
    (∀ j, j < 2 → ¬ occursAt (cp "abc") (cp "xxabc") j) ∧
    Exp_StringCaseMatch asciiLower (cp "xxabc") (cp "abc") false = (3, 2) :=
  ⟨by decide, by decide, by decide, by decide,
    (C4_literal_substring asciiLower (cp "xxabc") (cp "abc") (by decide) (by decide)).1 2
      (by decide) (by decide)⟩

/-- C5 (longest-match star).  For a string `s` without the code point 0 and a
pattern remainder `rest`, in both case settings (`Tcl_UniCharToLower` keeping
`[`, `?` and `\`): when `Exp_StringCaseMatch2(s, *rest)` succeeds with count
`n`, then `n = k + m` where `k` is the greatest split point in `0 .. strlen`
at which `Exp_StringCaseMatch2(s[k..], rest)` succeeds and `m` is its count
there. -/
theorem C5_longest_star (lw : Nat → Nat) (nocase : Bool)
    (hlw : nocase = true → lw 91 = 91 ∧ lw 63 = 63 ∧ lw 92 = 92) (s rest : List Nat)
    (hs : ∀ c ∈ s, c ≠ 0) (n : Int) (h : Exp_StringCaseMatch2 lw s (42 :: rest) nocase = n)
    (hn : n ≠ -1) :
    ∃ (k : Nat) (m : Int), k ≤ s.length ∧
      Exp_StringCaseMatch2 lw (s.drop k) rest nocase = m ∧ m ≠ -1 ∧
      (∀ j, k < j → j ≤ s.length → Exp_StringCaseMatch2 lw (s.drop j) rest nocase = -1) ∧
      n = k + m := by
  by_cases hq0 : peek (skipStars rest) = 0
  · rw [match2_star, if_pos hq0] at h
    refine ⟨s.length, 0, le_refl _, ?_, by decide, fun j h1 h2 => absurd h1 (by omega), ?_⟩
    · rw [List.drop_length]; exact match2_nil_stars lw nocase rest hq0
    · rw [← h]; simp
  · rcases star_spec lw nocase hlw s rest hs hq0 with ⟨hr, _⟩ | ⟨T, hT1, hT2, hT3, hT4, hT5⟩
    · rw [hr] at h; exact absurd h.symm hn
    · by_cases hr : peek rest = 42
      · obtain ⟨x, r, hxr, _⟩ := peek_ne_zero_cons (l := rest) (by rw [hr]; decide)
        subst hxr
        have hx : x = 42 := hr
        subst hx
        have hsk : skipStars (42 :: r) = skipStars r := by simp [skipStars]
        rw [hsk] at hq0 hT3 hT4 hT5
        have hfail : ∀ j, T - 1 < j → j ≤ s.length →
            Exp_StringCaseMatch2 lw (s.drop j) (42 :: r) nocase = -1 := by
          intro j hj1 hj2
          rcases star_spec lw nocase hlw (s.drop j) r (drop_no_zero hs j) hq0 with
            ⟨h1, _⟩ | ⟨T2, h1, h2, h3, _, _⟩
          · exact h1
          · rw [List.length_drop] at h2
            rw [List.drop_drop] at h3
            exact absurd (hT5 (j + T2) (by omega) (by omega)) h3
        rcases star_spec lw nocase hlw (s.drop (T - 1)) r (drop_no_zero hs _) hq0 with
          ⟨_, h2⟩ | ⟨T1, h1, h2, h3, h4, _⟩
        · have h3 := h2 1 (le_refl _) (by rw [List.length_drop]; omega)
          rw [List.drop_drop] at h3
          have h5 : T - 1 + 1 = T := by omega
          rw [h5] at h3
          exact absurd h3 hT3
        · rw [List.length_drop] at h2
          rw [List.drop_drop] at h3 h4
          have hT11 : T1 = 1 := by
            by_contra hne
            exact absurd (hT5 (T - 1 + T1) (by omega) (by omega)) h3
          subst hT11
          have h5 : T - 1 + 1 = T := by omega
          rw [h5] at h3 h4
          have hb := match2_bounds lw (s.drop T) (skipStars r) nocase
          refine ⟨T - 1, _, by omega, rfl, ?_, hfail, ?_⟩
          · rw [h4]; omega
          · rw [h4, ← h, hT4]
            push_cast
            omega
      · have hsk : skipStars rest = rest := skipStars_id rest hr
        rw [hsk] at hq0 hT3 hT4 hT5
        refine ⟨T, _, by omega, rfl, hT3, ?_, ?_⟩
        · intro j hj1 hj2
          by_cases hjl : j < s.length
          · exact hT5 j hj1 hjl
          · have hje : j = s.length := by omega
            rw [hje, List.drop_length]
            obtain ⟨x, r, hxr, hx0⟩ := peek_ne_zero_cons hq0
            subst hxr
            apply match2_empty lw nocase [] x r rfl hx0 hr
            intro hd
            apply hT3
            rw [List.drop_eq_getElem_cons hT2, hd.1, match2_dollar lw nocase _ r hd.2]
            have hpk : peek (s[T] :: List.drop (T + 1) s) = s[T] := rfl
            rw [hpk, if_neg (hs _ (List.getElem_mem _))]
        · rw [← h, hT4]

/-- The star of `*b` on `aXbXb` runs to the last `b`; `search("aXbXb", "a*b") = (5, 0)`. -/
theorem C5_longest_star_witness :
    (true = true → asciiLower 91 = 91 ∧ asciiLower 63 = 63 ∧ asciiLower 92 = 92) ∧
    (∀ c ∈ cp "aXbXb", c ≠ 0) ∧
    Exp_StringCaseMatch2 asciiLower (cp "aXbXb") (42 :: cp "b") true = 5 ∧ (5 : Int) ≠ -1 ∧
    (∃ (k : Nat) (m : Int), k ≤ (cp "aXbXb").length ∧
      Exp_StringCaseMatch2 asciiLower ((cp "aXbXb").drop k) (cp "b") true = m ∧ m ≠ -1 ∧
      (∀ j, k < j → j ≤ (cp "aXbXb").length →
        Exp_StringCaseMatch2 asciiLower ((cp "aXbXb").drop j) (cp "b") true = -1) ∧
      (5 : Int) = k + m) ∧
    Exp_StringCaseMatch asciiLower (cp "aXbXb") (cp "a*b") false = (5, 0) :=
  ⟨by decide, by decide, by decide, by decide,
    C5_longest_star asciiLower true (by decide) (cp "aXbXb") (cp "b") (by decide) 5 (by decide)
      (by decide),
    by decide⟩

/-- C6 (end anchor).  For a string `s` without the code point 0 and a non-empty
`q` of ordinary characters, with the case kept: the search for `q$` returns
the length of `q` at offset `strlen - length q` when `s` ends with `q`, and no
match otherwise; `search("abcd", "abc$")` is no match and
`search("abc", "abc$") = (3, 0)`. -/
theorem C6_end_anchor (lw : Nat → Nat) (s q : List Nat) (hs : ∀ c ∈ s, c ≠ 0)
    (hq : ∀ x ∈ q, ordinary x) (hne : q ≠ []) :
    Exp_StringCaseMatch lw s (q ++ [36]) false
      = if q <:+ s then ((q.length : Int), s.length - q.length) else (-1, 0) := by
  have hs0 : s = [] ∨ peek s ≠ 0 := by
    cases s with
    | nil => left; rfl
    | cons c t => right; exact hs c (by simp)
  have hp1 : peek (q ++ [36]) ≠ 94 ∧ peek (q ++ [36]) ≠ 42 := by
    cases q with
    | nil => exact absurd rfl hne
    | cons x q =>
      obtain ⟨_, h1, _, _, _, _, h7⟩ := hq x (by simp)
      exact ⟨h7, h1⟩
  have hlen : 0 < q.length := List.length_pos.mpr hne
  have hlit : ∀ k, Exp_StringCaseMatch2 lw (s.drop k) (q ++ [36]) false
      = if s.drop k = q then (q.length : Int) else -1 :=
    fun k => match2_literal_dollar lw q hq (s.drop k) (fun c hc => hs c (List.mem_of_mem_drop hc))
  have hsuf : ∀ k, s.drop k = q → q <:+ s ∧ k = s.length - q.length := by
    intro k hk
    refine ⟨⟨s.take k, ?_⟩, ?_⟩
    · rw [← hk]; exact List.take_append_drop k s
    · have := congrArg List.length hk
      simp only [List.length_drop] at this
      omega
  rcases search_spec lw false s (q ++ [36]) hs0 hp1.1 hp1.2 with
    ⟨hr, hall⟩ | ⟨k0, hk1, hk2, hk3, hk4⟩
  · rw [hr, if_neg]
    rintro ⟨r, hr2⟩
    have hk : s.drop r.length = q := by rw [← hr2]; simp
    have hl : s.length = r.length + q.length := by rw [← hr2]; simp
    have := hall r.length (Or.inr (by omega))
    rw [hlit, if_pos hk] at this
    omega
  · rw [hlit] at hk2
    have hk : s.drop k0 = q := by
      by_contra h
      rw [if_neg h] at hk2
      exact hk2 rfl
    obtain ⟨h1, h2⟩ := hsuf k0 hk
    rw [hk4, hlit, if_pos hk, if_pos h1, h2]

/-- The pattern `abc$` on `abc` and on `abcd`. -/
theorem C6_end_anchor_witness :
    (∀ c ∈ cp "abc", c ≠ 0) ∧ (∀ x ∈ cp "abc", ordinary x) ∧ cp "abc" ≠ [] ∧
    Exp_StringCaseMatch asciiLower (cp "abc") (cp "abc" ++ [36]) false = (3, 0) ∧
    (∀ c ∈ cp "abcd", c ≠ 0) ∧
    Exp_StringCaseMatch asciiLower (cp "abcd") (cp "abc" ++ [36]) false = (-1, 0) :=
  ⟨by decide, by decide, by decide,
    (C6_end_anchor asciiLower (cp "abc") (cp "abc") (by decide) (by decide) (by decide)).trans
      (by decide),
    by decide,
    (C6_end_anchor asciiLower (cp "abcd") (cp "abc") (by decide) (by decide) (by decide)).trans
      (by decide)⟩

/-- C7, as the code has it: for a string without the code point 0 and a
pattern `[m` whose class is not closed before the end of the pattern, the
search is no match exactly when no string character is accepted by a member
of `m`; when some character is accepted, the end of the pattern closes the
class and the search returns the count 1 at the first accepted position. -/
theorem C7_unterminated_class (lw : Nat → Nat) (nocase : Bool) (s m : List Nat)
    (hs : ∀ c ∈ s, c ≠ 0) (hm : ∀ x ∈ m, x ≠ 93 ∧ x ≠ 0) :
    ((Exp_StringCaseMatch lw s (91 :: m) nocase).1 = -1 ↔
      ∀ c ∈ s, classAccepts lw nocase c m = false) ∧
    (∀ k, k < s.length → classAccepts lw nocase (s.getD k 0) m = true →
      (∀ j, j < k → classAccepts lw nocase (s.getD j 0) m = false) →
      Exp_StringCaseMatch lw s (91 :: m) nocase = (1, k)) := by
  have hs0 : s = [] ∨ peek s ≠ 0 := by
    cases s with
    | nil => left; rfl
    | cons c t => right; exact hs c (by simp)
  have hval : ∀ k, k < s.length → Exp_StringCaseMatch2 lw (s.drop k) (91 :: m) nocase
      = if classAccepts lw nocase (s.getD k 0) m = true then 1 else -1 := by
    intro k hk
    rw [List.drop_eq_getElem_cons hk, List.getD_eq_getElem s 0 hk]
    exact match2_open_class lw nocase _ _ m (hs _ (List.getElem_mem _)) hm
  have hnil : s = [] → Exp_StringCaseMatch2 lw s (91 :: m) nocase = -1 := by
    intro h
    subst h
    exact match2_empty lw nocase [] 91 m rfl (by decide) (by decide)
      (fun h => absurd h.1 (by decide))
  rcases search_spec lw nocase s (91 :: m) hs0 (by simp [peek]) (by simp [peek]) with
    ⟨hr, hall⟩ | ⟨k0, hk1, hk2, hk3, hk4⟩
  · have hno : ∀ k, k < s.length → classAccepts lw nocase (s.getD k 0) m = false := by
      intro k hk
      have h1 := hall k (Or.inr hk)
      rw [hval k hk] at h1
      by_contra h2
      rw [if_pos (by simpa using h2)] at h1
      exact absurd h1 (by decide)
    refine ⟨?_, ?_⟩
    · rw [hr]
      refine ⟨fun _ c hc => ?_, fun _ => rfl⟩
      obtain ⟨k, hk, hkc⟩ := List.getElem_of_mem hc
      have := hno k hk
      rwa [List.getD_eq_getElem s 0 hk, hkc] at this
    · intro k hk hacc _
      rw [hno k hk] at hacc
      exact absurd hacc (by decide)
  · have hlt : k0 < s.length := by
      rcases hk1 with h | h
      · subst h
        by_contra hlen
        have : s = [] := List.eq_nil_of_length_eq_zero (by omega)
        rw [List.drop_zero] at hk2
        exact hk2 (hnil this)
      · exact h
    have hacc0 : classAccepts lw nocase (s.getD k0 0) m = true := by
      rw [hval k0 hlt] at hk2
      by_contra h
      rw [if_neg h] at hk2
      exact hk2 rfl
    refine ⟨?_, ?_⟩
    · rw [hk4]
      constructor
      · intro h; exact absurd h hk2
      · intro h
        have := h (s.getD k0 0) (by rw [List.getD_eq_getElem s 0 hlt]; exact List.getElem_mem _)
        rw [this] at hacc0
        exact absurd hacc0 (by decide)
    · intro k hk hacc hmin
      have hkk : k = k0 := by
        rcases Nat.lt_trichotomy k k0 with h | h | h
        · have h1 := hk3 k h
          rw [hval k hk, if_pos hacc] at h1
          exact absurd h1 (by decide)
        · exact h
        · have := hmin k0 h
          rw [this] at hacc0
          exact absurd hacc0 (by decide)
      subst hkk
      rw [hk4, hval k hk, if_pos hacc]

/-- The open class `[a` on `ba`: the count 1 at offset 1. -/
theorem C7_unterminated_class_witness :
    (∀ c ∈ cp "ba", c ≠ 0) ∧ (∀ x ∈ cp "a", x ≠ 93 ∧ x ≠ 0) ∧ 1 < (cp "ba").length ∧
    classAccepts asciiLower false ((cp "ba").getD 1 0) (cp "a") = true ∧
    (∀ j, j < 1 → classAccepts asciiLower false ((cp "ba").getD j 0) (cp "a") = false) ∧
    Exp_StringCaseMatch asciiLower (cp "ba") (91 :: cp "a") false = (1, 1) :=
  ⟨by decide, by decide, by decide, by decide, by decide,
    (C7_unterminated_class asciiLower false (cp "ba") (cp "a") (by decide) (by decide)).2 1
      (by decide) (by decide) (by decide)⟩

/-- C7 as stated fails: the pattern `[a` holds a class without a closing `]`,
and the search in `a` returns the count 1 at offset 0, not a failure. -/
theorem C7_counterexample :
    93 ∉ cp "[a" ∧ Exp_StringCaseMatch asciiLower (cp "a") (cp "[a") false = (1, 0) := by
  decide

/-- C8, as the code has it: a code point 0 in the string ends the string.  A
`?` consumes one string character `c` that is not 0, and the search for `?`
then returns `(1, 0)`; against a string that begins with the code point 0 the
`?` fails, and so does the search. -/
theorem C8_question_mark (lw : Nat → Nat) (nocase : Bool) (c : Nat) (s rest : List Nat)
    (hc : c ≠ 0) :
    Exp_StringCaseMatch2 lw (c :: s) (63 :: rest) nocase
      = addMatched 1 (Exp_StringCaseMatch2 lw s rest nocase) ∧
    Exp_StringCaseMatch lw (c :: s) [63] nocase = (1, 0) ∧
    Exp_StringCaseMatch2 lw (0 :: s) (63 :: rest) nocase = -1 ∧
    Exp_StringCaseMatch lw (0 :: s) [63] nocase = (-1, 0) := by
  have h1 := match2_quest lw nocase c s rest hc
  have h2 : Exp_StringCaseMatch2 lw (c :: s) [63] nocase = 1 := by
    rw [match2_quest lw nocase c s [] hc, match2_end lw nocase s [] rfl]; rfl
  have h3 : ∀ r, Exp_StringCaseMatch2 lw (0 :: s) (63 :: r) nocase = -1 :=
    fun r => match2_empty lw nocase (0 :: s) 63 r rfl (by decide) (by decide)
      (fun h => absurd h.1 (by decide))
  refine ⟨h1, ?_, h3 rest, ?_⟩
  · unfold Exp_StringCaseMatch
    simp [peek, h2]
  · unfold Exp_StringCaseMatch
    simp [peek, h3 []]

/-- The pattern `?` on strings that begin with `a` and with the code point 0. -/
theorem C8_question_mark_witness :
    (97 : Nat) ≠ 0 ∧
    Exp_StringCaseMatch2 asciiLower (97 :: [0, 98]) (63 :: cp "?b") false
      = addMatched 1 (Exp_StringCaseMatch2 asciiLower [0, 98] (cp "?b") false) ∧
    Exp_StringCaseMatch asciiLower (97 :: [0, 98]) [63] false = (1, 0) ∧
    Exp_StringCaseMatch2 asciiLower (0 :: [0, 98]) (63 :: cp "?b") false = -1 ∧
    Exp_StringCaseMatch asciiLower (0 :: [0, 98]) [63] false = (-1, 0) :=
  ⟨by decide, C8_question_mark asciiLower false 97 [0, 98] (cp "?b") (by decide)⟩

/-- C8 as stated fails: against the non-empty string that holds the code
points 0 and `a`, the search for `?` is no match, and `?` does not consume
the code point 0 although the rest of the pattern matches the rest of the
string. -/
theorem C8_counterexample :
    Exp_StringCaseMatch asciiLower [0, 97] (cp "?") false = (-1, 0) ∧
    Exp_StringCaseMatch2 asciiLower (0 :: cp "a") (cp "?" ++ cp "a") false = -1 ∧
    addMatched 1 (Exp_StringCaseMatch2 asciiLower (cp "a") (cp "a") false) = 2 := by
  decide

/-- C9 (offset reporting is idempotent).  When the search for a pattern `p`
that does not begin with `^` returns the count `n` at offset `k`, the search
for `^p` in the suffix that starts at `k` returns `n` at offset 0. -/
theorem C9_offset_idempotent (lw : Nat → Nat) (nocase : Bool) (s p : List Nat) (n : Int)
    (k : Nat) (hp : peek p ≠ 94) (h : Exp_StringCaseMatch lw s p nocase = (n, k))
    (hn : n ≠ -1) :
    Exp_StringCaseMatch lw (s.drop k) (94 :: p) nocase = (n, 0) := by
  rw [search_caret, search_sound lw nocase s p n k h hn hp]

/-- The pattern `a*b` matches `xxaXbXbx` at offset 2, and `^a*b` the suffix from there. -/
theorem C9_offset_idempotent_witness :
    peek (cp "a*b") ≠ 94 ∧
    Exp_StringCaseMatch asciiLower (cp "xxaXbXbx") (cp "a*b") true = (5, 2) ∧ (5 : Int) ≠ -1 ∧
    Exp_StringCaseMatch asciiLower ((cp "xxaXbXbx").drop 2) (94 :: cp "a*b") true = (5, 0) :=
  ⟨by decide, by decide, by decide,
    C9_offset_idempotent asciiLower true (cp "xxaXbXbx") (cp "a*b") 5 2 (by decide) (by decide)
      (by decide)⟩

/-- C10 (range classes are symmetric).  For code points `a`, `b` other than 0
and `]` and a string character `c` other than 0, in both case settings: the
classes `[a-b]` and `[b-a]` give the same result, and with the case kept both
consume `c` exactly when `min a b <= c <= max a b` and fail otherwise. -/
theorem C10_range_symmetric (lw : Nat → Nat) (nocase : Bool) (a b c : Nat) (s rest : List Nat)
    (ha0 : a ≠ 0) (ha : a ≠ 93) (hb0 : b ≠ 0) (hb : b ≠ 93) (hc : c ≠ 0) :
    Exp_StringCaseMatch2 lw (c :: s) (91 :: a :: 45 :: b :: 93 :: rest) nocase
      = Exp_StringCaseMatch2 lw (c :: s) (91 :: b :: 45 :: a :: 93 :: rest) nocase ∧
    Exp_StringCaseMatch2 lw (c :: s) (91 :: a :: 45 :: b :: 93 :: rest) false
      = (if min a b ≤ c ∧ c ≤ max a b then addMatched 1 (Exp_StringCaseMatch2 lw s rest false)
          else -1) ∧
    Exp_StringCaseMatch2 lw (c :: s) (91 :: b :: 45 :: a :: 93 :: rest) false
      = (if min a b ≤ c ∧ c ≤ max a b then addMatched 1 (Exp_StringCaseMatch2 lw s rest false)
          else -1) := by
  have hskip : classSkip (93 :: rest) = rest := by simp [classSkip]
  refine ⟨?_, ?_, ?_⟩
  · rw [match2_class lw nocase c s _ hc, match2_class lw nocase c s _ hc,
      classScan_range lw nocase a b c rest ha0 ha hb0,
      classScan_range lw nocase b a c rest hb0 hb ha0]
    have hsym : (((if nocase = true then lw a else a) ≤ c ∧ c ≤ (if nocase = true then lw b else b)) ∨
          ((if nocase = true then lw b else b) ≤ c ∧ c ≤ (if nocase = true then lw a else a)))
        ↔ (((if nocase = true then lw b else b) ≤ c ∧ c ≤ (if nocase = true then lw a else a)) ∨
          ((if nocase = true then lw a else a) ≤ c ∧ c ≤ (if nocase = true then lw b else b))) :=
      Or.comm
    simp only [hsym]
  · rw [match2_class lw false c s _ hc, classScan_range lw false a b c rest ha0 ha hb0]
    simp only [Bool.false_eq_true, if_false]
    have hiff : ((a ≤ c ∧ c ≤ b) ∨ (b ≤ c ∧ c ≤ a)) ↔ (min a b ≤ c ∧ c ≤ max a b) := by
      simp only [Nat.min_def, Nat.max_def]
      split_ifs <;> omega
    by_cases hr : (a ≤ c ∧ c ≤ b) ∨ (b ≤ c ∧ c ≤ a)
    · rw [if_pos hr, if_pos (hiff.1 hr)]
      simp only [hskip]
    · rw [if_neg hr, if_neg (fun h => hr (hiff.2 h))]
  · rw [match2_class lw false c s _ hc, classScan_range lw false b a c rest hb0 hb ha0]
    simp only [Bool.false_eq_true, if_false]
    have hiff : ((b ≤ c ∧ c ≤ a) ∨ (a ≤ c ∧ c ≤ b)) ↔ (min a b ≤ c ∧ c ≤ max a b) := by
      simp only [Nat.min_def, Nat.max_def]
      split_ifs <;> omega
    by_cases hr : (b ≤ c ∧ c ≤ a) ∨ (a ≤ c ∧ c ≤ b)
    · rw [if_pos hr, if_pos (hiff.1 hr)]
      simp only [hskip]
    · rw [if_neg hr, if_neg (fun h => hr (hiff.2 h))]

/-- The classes `[a-c]` and `[c-a]` on `b`. -/
theorem C10_range_symmetric_witness :
    (97 : Nat) ≠ 0 ∧ (97 : Nat) ≠ 93 ∧ (99 : Nat) ≠ 0 ∧ (99 : Nat) ≠ 93 ∧ (98 : Nat) ≠ 0 ∧
    (Exp_StringCaseMatch2 asciiLower (98 :: []) (91 :: 97 :: 45 :: 99 :: 93 :: []) true
      = Exp_StringCaseMatch2 asciiLower (98 :: []) (91 :: 99 :: 45 :: 97 :: 93 :: []) true ∧
    Exp_StringCaseMatch2 asciiLower (98 :: []) (91 :: 97 :: 45 :: 99 :: 93 :: []) false
      = (if min 97 99 ≤ 98 ∧ 98 ≤ max 97 99 then
          addMatched 1 (Exp_StringCaseMatch2 asciiLower [] [] false) else -1) ∧
    Exp_StringCaseMatch2 asciiLower (98 :: []) (91 :: 99 :: 45 :: 97 :: 93 :: []) false
      = (if min 97 99 ≤ 98 ∧ 98 ≤ max 97 99 then
          addMatched 1 (Exp_StringCaseMatch2 asciiLower [] [] false) else -1)) ∧
    Exp_StringCaseMatch asciiLower (cp "b") (cp "[a-c]") false = (1, 0) ∧
    Exp_StringCaseMatch asciiLower (cp "b") (cp "[c-a]") false = (1, 0) :=
  ⟨by decide, by decide, by decide, by decide, by decide,
    C10_range_symmetric asciiLower true 97 99 98 [] [] (by decide) (by decide) (by decide)
      (by decide) (by decide),
    by decide, by decide⟩

/-- C11 (case-insensitive literal matching).  For a string `s` without the
code point 0 and a pattern `p` of ordinary characters of the same length:
with the case folded the search returns `(length p, 0)` exactly when
`lower(s[i]) = lower(p[i])` for every `i`, with the case kept exactly when
`s = p`, and in both settings the only other result is no match. -/
theorem C11_case_insensitive_literal (lw : Nat → Nat) (s p : List Nat)
    (hs : ∀ c ∈ s, c ≠ 0) (hp : ∀ x ∈ p, ordinary x) (hlen : s.length = p.length) :
    (Exp_StringCaseMatch lw s p true = ((p.length : Int), 0) ↔
      ∀ i, i < p.length → lw (s.getD i 0) = lw (p.getD i 0)) ∧
    (Exp_StringCaseMatch lw s p false = ((p.length : Int), 0) ↔ s = p) ∧
    (∀ nocase, Exp_StringCaseMatch lw s p nocase = ((p.length : Int), 0) ∨
      Exp_StringCaseMatch lw s p nocase = (-1, 0)) := by
  have hp1 := ordinary_peek hp
  have hfail : ∀ nocase, Exp_StringCaseMatch2 lw s p nocase = -1 →
      Exp_StringCaseMatch lw s p nocase = (-1, 0) := by
    intro nocase h
    rcases search_spec lw nocase s p (no_zero_peek hs) hp1.1 hp1.2 with
      ⟨hr, _⟩ | ⟨k0, hk1, hk2, _, _⟩
    · exact hr
    · exfalso
      apply hk2
      by_cases hk : k0 = 0
      · subst hk; simpa using h
      · apply match2_literal_short lw nocase p hp
        rw [List.length_drop]; omega
  have hfold := match2_literal_fold lw p hp s hs hlen
  have hkeep := match2_literal lw p hp s
  rw [← hlen, List.take_length, hlen] at hkeep
  have hA : Exp_StringCaseMatch lw s p true = ((p.length : Int), 0) ↔ s.map lw = p.map lw := by
    by_cases h : s.map lw = p.map lw
    · rw [if_pos h] at hfold
      have := search_zero lw true s p hp1.1 (by rw [hfold]; omega)
      rw [this, hfold]
      exact ⟨fun _ => h, fun _ => rfl⟩
    · rw [if_neg h] at hfold
      rw [hfail true hfold]
      constructor
      · intro h2
        have := congrArg Prod.fst h2
        simp only at this
        omega
      · intro h2; exact absurd h2 h
  have hB : Exp_StringCaseMatch lw s p false = ((p.length : Int), 0) ↔ s = p := by
    by_cases h : s = p
    · rw [if_pos h] at hkeep
      have := search_zero lw false s p hp1.1 (by rw [hkeep]; omega)
      rw [this, hkeep]
      exact ⟨fun _ => h, fun _ => rfl⟩
    · rw [if_neg h] at hkeep
      rw [hfail false hkeep]
      constructor
      · intro h2
        have := congrArg Prod.fst h2
        simp only at this
        omega
      · intro h2; exact absurd h2 h
  refine ⟨?_, hB, ?_⟩
  · rw [hA]; exact map_eq_iff_getD lw s p hlen
  · intro nocase
    cases nocase with
    | true =>
      by_cases h : s.map lw = p.map lw
      · left; exact hA.2 h
      · right; rw [if_neg h] at hfold; exact hfail true hfold
    | false =>
      by_cases h : s = p
      · left; exact hB.2 h
      · right; rw [if_neg h] at hkeep; exact hfail false hkeep

/-- The strings `ABC` and `abc`: a match with the case folded, none with the
case kept. -/
theorem C11_case_insensitive_literal_witness :
    (∀ c ∈ cp "ABC", c ≠ 0) ∧ (∀ x ∈ cp "abc", ordinary x) ∧
    (cp "ABC").length = (cp "abc").length ∧
    Exp_StringCaseMatch asciiLower (cp "ABC") (cp "abc") true = (3, 0) ∧
    Exp_StringCaseMatch asciiLower (cp "ABC") (cp "abc") false = (-1, 0) ∧
    ((Exp_StringCaseMatch asciiLower (cp "ABC") (cp "abc") true = (((cp "abc").length : Int), 0) ↔
      ∀ i, i < (cp "abc").length →
        asciiLower ((cp "ABC").getD i 0) = asciiLower ((cp "abc").getD i 0))) :=
  ⟨by decide, by decide, by decide, by decide, by decide,
    (C11_case_insensitive_literal asciiLower (cp "ABC") (cp "abc") (by decide) (by decide)
      (by decide)).1⟩

/-- C12 (a trailing run of stars consumes the remainder).  For a string `s`
without the code point 0, a possibly empty `q` of ordinary characters and a run
of `j + 1` stars, with the case kept: the search for `q` followed by the
stars returns `(strlen - o, o)` at the first occurrence `o` of `q` in `s`, and
no match when `q` does not occur in `s`; the search for `*` returns
`(strlen, 0)` for every string. -/
theorem C12_trailing_stars (lw : Nat → Nat) (s q : List Nat) (j : Nat)
    (hs : ∀ c ∈ s, c ≠ 0) (hq : ∀ x ∈ q, ordinary x) :
    (∀ o, occursAt q s o → (∀ i, i < o → ¬ occursAt q s i) →
      Exp_StringCaseMatch lw s (q ++ List.replicate (j + 1) 42) false
        = ((s.length : Int) - o, o)) ∧
    ((¬ ∃ o, occursAt q s o) →
      Exp_StringCaseMatch lw s (q ++ List.replicate (j + 1) 42) false = (-1, 0)) ∧
    (∀ t : List Nat, Exp_StringCaseMatch lw t [42] false = ((t.length : Int), 0)) := by
  have hlit := match2_literal_stars lw q hq j
  have hstar : ∀ t : List Nat, Exp_StringCaseMatch lw t [42] false = ((t.length : Int), 0) := by
    intro t
    have h1 : Exp_StringCaseMatch2 lw t [42] false = t.length := by
      rw [match2_star, if_pos (by rfl)]
    rw [search_zero lw false t [42] (by decide) (by rw [h1]; omega), h1]
  have hval : ∀ k, k ≤ s.length → occursAt q s k →
      Exp_StringCaseMatch2 lw (s.drop k) (q ++ List.replicate (j + 1) 42) false
        = (s.length : Int) - k := by
    intro k hkl hk
    unfold occursAt at hk
    rw [hlit, if_pos hk, List.length_drop]
    omega
  have hiff : ∀ k, Exp_StringCaseMatch2 lw (s.drop k) (q ++ List.replicate (j + 1) 42) false ≠ -1
      ↔ occursAt q s k := by
    intro k
    rw [hlit]
    unfold occursAt
    split
    · rename_i h; simp only [h, iff_true]; omega
    · rename_i h; simp [h]
  refine ⟨?_, ?_, hstar⟩
  · intro o ho hmin
    cases q with
    | nil =>
      have ho0 : o = 0 := by
        by_contra hne
        exact hmin 0 (by omega) (by unfold occursAt; rfl)
      subst ho0
      have h1 := hval 0 (Nat.zero_le _) ho
      rw [List.drop_zero] at h1
      rw [List.nil_append, List.replicate_succ] at h1 ⊢
      rw [search_zero lw false s _ (by simp [peek]) (by rw [h1]; omega), h1]
    | cons x q =>
      have hp1 : peek ((x :: q) ++ List.replicate (j + 1) 42) ≠ 94 ∧
          peek ((x :: q) ++ List.replicate (j + 1) 42) ≠ 42 := by
        obtain ⟨_, h1, _, _, _, _, h7⟩ := hq x (by simp)
        exact ⟨h7, h1⟩
      rcases search_spec lw false s _ (no_zero_peek hs) hp1.1 hp1.2 with
        ⟨_, hall⟩ | ⟨k0, hk1, hk2, hk3, hk4⟩
      · exfalso
        have hol : o < s.length := by
          by_contra hge
          unfold occursAt at ho
          rw [List.drop_of_length_le (by omega)] at ho
          simp at ho
        exact (hiff o).2 ho (hall o (Or.inr hol))
      · have hocc := (hiff k0).1 hk2
        have hkk : o = k0 := by
          rcases Nat.lt_trichotomy o k0 with h | h | h
          · exact absurd (hk3 o h) ((hiff o).2 ho)
          · exact h
          · exact absurd hocc (hmin k0 h)
        subst hkk
        rw [hk4, hval o (by omega) ho]
  · intro hnone
    cases q with
    | nil => exact absurd ⟨0, by unfold occursAt; rfl⟩ hnone
    | cons x q =>
      have hp1 : peek ((x :: q) ++ List.replicate (j + 1) 42) ≠ 94 ∧
          peek ((x :: q) ++ List.replicate (j + 1) 42) ≠ 42 := by
        obtain ⟨_, h1, _, _, _, _, h7⟩ := hq x (by simp)
        exact ⟨h7, h1⟩
      rcases search_spec lw false s _ (no_zero_peek hs) hp1.1 hp1.2 with
        ⟨hr, _⟩ | ⟨k0, _, hk2, _, _⟩
      · exact hr
      · exact absurd ⟨k0, (hiff k0).1 hk2⟩ hnone

/-- The pattern `bc**` first occurs in `abcd` at index 1 and the stars take the
rest. -/
theorem C12_trailing_stars_witness :
    (∀ c ∈ cp "abcd", c ≠ 0) ∧ (∀ x ∈ cp "bc", ordinary x) ∧ occursAt (cp "bc") (cp "abcd") 1 ∧
    (∀ i, i < 1 → ¬ occursAt (cp "bc") (cp "abcd") i) ∧
    Exp_StringCaseMatch asciiLower (cp "abcd") (cp "bc" ++ List.replicate (1 + 1) 42) false
      = (((cp "abcd").length : Int) - (1 : Nat), 1) ∧
    Exp_StringCaseMatch asciiLower (cp "abcd") (cp "bc**") false = (3, 1) :=
  ⟨by decide, by decide, by decide, by decide,
    (C12_trailing_stars asciiLower (cp "abcd") (cp "bc") 1 (by decide) (by decide)).1 1
      (by decide) (by decide),
    by decide⟩

/-- C13 (zero-length match on the bare end anchor).  The search for `$` in
the empty string returns `(0, 0)`; in a non-empty string without the code
point 0 it is no match, the start offsets being tried only up to
`strlen - 1`. -/
theorem C13_bare_end_anchor (lw : Nat → Nat) (nocase : Bool) (s : List Nat) (hne : s ≠ [])
    (hs : ∀ c ∈ s, c ≠ 0) :
    Exp_StringCaseMatch lw [] [36] nocase = (0, 0) ∧
    Exp_StringCaseMatch lw s [36] nocase = (-1, 0) := by
  constructor
  · have h1 : Exp_StringCaseMatch2 lw [] [36] nocase = 0 := by
      rw [match2_dollar lw nocase [] [] rfl]; rfl
    rw [search_zero lw nocase [] [36] (by decide) (by rw [h1]; decide), h1]
  · have hlen : 0 < s.length := List.length_pos.mpr hne
    rcases search_spec lw nocase s [36] (no_zero_peek hs) (by decide) (by decide) with
      ⟨hr, _⟩ | ⟨k0, hk1, hk2, _, _⟩
    · exact hr
    · exfalso
      apply hk2
      have hk : k0 < s.length := by omega
      rw [List.drop_eq_getElem_cons hk, match2_dollar lw nocase _ [] rfl]
      have hpk : peek (s[k0] :: List.drop (k0 + 1) s) = s[k0] := rfl
      rw [hpk, if_neg (hs _ (List.getElem_mem _))]

/-- The pattern `$` on the empty string and on `ab`. -/
theorem C13_bare_end_anchor_witness :
    cp "ab" ≠ [] ∧ (∀ c ∈ cp "ab", c ≠ 0) ∧
    Exp_StringCaseMatch asciiLower [] [36] false = (0, 0) ∧
    Exp_StringCaseMatch asciiLower (cp "ab") [36] false = (-1, 0) :=
  ⟨by decide, by decide, C13_bare_end_anchor asciiLower false (cp "ab") (by decide) (by decide)⟩

/-- C14, the code at the failing input: the pattern `ab` matches `ab`, so the
star of `*ab` would have to span zero characters, but the backward scan leaves
on `tail <= string` (line 200) before it tries that split point, and `*ab`
does not match `ab`. -/
theorem C14_star_zero_span_failing_input :
    Exp_StringCaseMatch2 asciiLower (cp "ab") (cp "ab") false = 2 ∧
    Exp_StringCaseMatch2 asciiLower (cp "ab") (cp "*ab") false = -1 ∧
    Exp_StringCaseMatch asciiLower (cp "ab") (cp "*ab") false = (-1, 0) ∧
    Exp_StringCaseMatch2 asciiLower (cp "xab") (cp "*ab") false = 3 := by
  decide

/-- C15, the code at the failing input: with the case folded `A` and `a` fold
to the same code point and the pattern `a` matches `A`, but the class `[a]`
does not, the class branch comparing the folded member with the string
character as it is (line 248). -/
theorem C15_class_fold_failing_input :
    asciiLower 65 = asciiLower 97 ∧
    Exp_StringCaseMatch asciiLower (cp "A") (cp "a") true = (1, 0) ∧
    Exp_StringCaseMatch2 asciiLower (cp "A") (cp "[a]") true = -1 ∧
    Exp_StringCaseMatch asciiLower (cp "A") (cp "[a]") true = (-1, 0) ∧
    Exp_StringCaseMatch asciiLower (cp "a") (cp "[A]") true = (1, 0) := by
  decide

/-- C16 (the early exit for a leading star loses no match).  For every
string, every pattern `*rest` and both case settings: when
`Exp_StringCaseMatch2` fails at offset 0 it fails on the suffix at every later
offset, and the search returns what the full leftmost scan over all start
offsets returns. -/
theorem C16_leading_star_exit (lw : Nat → Nat) (nocase : Bool) (s rest : List Nat) :
    (Exp_StringCaseMatch2 lw s (42 :: rest) nocase = -1 →
      ∀ k, 1 ≤ k → k < s.length → Exp_StringCaseMatch2 lw (s.drop k) (42 :: rest) nocase = -1) ∧
    Exp_StringCaseMatch lw s (42 :: rest) nocase = fullLeftmostScan lw s (42 :: rest) nocase := by
  refine ⟨fun h k _ _ => star_fail_suffix lw nocase s rest h k, ?_⟩
  rw [search_star]
  unfold fullLeftmostScan
  have hb := match2_bounds lw s (42 :: rest) nocase
  have h42 : peek (42 :: rest) = 42 := rfl
  simp only [h42, ge_iff_le]
  rw [show decide ((42 : Nat) = 94) = false from rfl]
  simp only [Bool.false_eq_true, if_false]
  by_cases h0 : 0 ≤ Exp_StringCaseMatch2 lw s (42 :: rest) nocase
  · rw [if_pos h0]
  · rw [if_neg h0]
    have h3 : Exp_StringCaseMatch2 lw s (42 :: rest) nocase = -1 := by omega
    rw [h3]
    by_cases hz : peek s = 0
    · rw [if_pos hz]
    · rw [if_neg hz]
      obtain ⟨c, t, hct, _⟩ := peek_ne_zero_cons hz
      subst hct
      rcases searchFrom_spec lw nocase (42 :: rest) t 1 with ⟨h4, _⟩ | ⟨j, _, hj2, _, _⟩
      · exact h4.symm
      · exfalso
        apply hj2
        have := star_fail_suffix lw nocase (c :: t) rest h3 (j + 1)
        rwa [List.drop_succ_cons] at this

/-- The pattern `*x` fails on `abc` and on its suffixes, and the full scan
agrees with the search; the full scan for `*ab` in `xab` finds the match at
offset 0. -/
theorem C16_leading_star_exit_witness :
    (Exp_StringCaseMatch2 asciiLower (cp "abc") (42 :: cp "x") true = -1 →
      ∀ k, 1 ≤ k → k < (cp "abc").length →
        Exp_StringCaseMatch2 asciiLower ((cp "abc").drop k) (42 :: cp "x") true = -1) ∧
    Exp_StringCaseMatch2 asciiLower (cp "abc") (42 :: cp "x") true = -1 ∧
    Exp_StringCaseMatch asciiLower (cp "abc") (42 :: cp "x") true
      = fullLeftmostScan asciiLower (cp "abc") (42 :: cp "x") true ∧
    fullLeftmostScan asciiLower (cp "xab") (cp "*ab") false = (3, 0) :=
  ⟨(C16_leading_star_exit asciiLower true (cp "abc") (cp "x")).1, by decide,
    (C16_leading_star_exit asciiLower true (cp "abc") (cp "x")).2, by decide⟩

/-- C17 (backslash escape).  With the case kept and `c` other than 0: the
pattern `\c` consumes the string character `c`, whatever `c` is, and the match
goes on with the rest; it fails on every other string character; and a
backslash that is followed by the end of the pattern fails, in whatever state
the loop reaches it, so that the search for `\` is no match for every
string. -/
theorem C17_backslash_escape (lw : Nat → Nat) (c : Nat) (s rest : List Nat) (hc : c ≠ 0) :
    Exp_StringCaseMatch2 lw (c :: s) (92 :: c :: rest) false
      = addMatched 1 (Exp_StringCaseMatch2 lw s rest false) ∧
    (∀ d, d ≠ c → Exp_StringCaseMatch2 lw (d :: s) (92 :: c :: rest) false = -1) ∧
    (∀ (nocase : Bool) (t r : List Nat) (m : Int), peek r = 0 →
      Exp_StringCaseMatch2Loop lw nocase t (92 :: r) m = -1) ∧
    (∀ (nocase : Bool) (t : List Nat), Exp_StringCaseMatch lw t [92] nocase = (-1, 0)) := by
  have hend : ∀ (nocase : Bool) (t r : List Nat) (m : Int), peek r = 0 →
      Exp_StringCaseMatch2Loop lw nocase t (92 :: r) m = -1 := by
    intro nocase t r m hr
    rw [Exp_StringCaseMatch2Loop_eq, Exp_StringCaseMatch2Body]
    have h92 : peek (92 :: r) = 92 := rfl
    simp only [h92, List.tail_cons]
    rw [if_neg (by decide), if_neg (fun h => absurd h.1 (by decide)), if_neg (by decide)]
    by_cases hz : peek t = 0
    · rw [if_pos hz]
    · rw [if_neg hz, if_neg (by decide), if_neg (by decide)]
      simp only [if_true, hr, and_self]
  refine ⟨?_, ?_, hend, ?_⟩
  · rw [match2_esc lw false c s (c :: rest) hc]
    have hpk : peek (c :: rest) = c := rfl
    rw [hpk, if_neg hc, if_neg (by simp [mismatch]), List.tail_cons]
  · intro d hd
    by_cases hd0 : d = 0
    · subst hd0
      exact match2_empty lw false (0 :: s) 92 (c :: rest) rfl (by decide) (by decide)
        (fun h => absurd h.1 (by decide))
    · rw [match2_esc lw false d s (c :: rest) hd0]
      have hpk : peek (c :: rest) = c := rfl
      rw [hpk, if_neg hc, if_pos (by simpa [mismatch] using hd)]
  · intro nocase t
    rcases search_cases lw nocase t [92] with h | ⟨k, _, hk2, _⟩
    · exact h
    · exfalso
      apply hk2
      have hp : (if decide (peek [92] = 94) = true then [92].tail else [92]) = [92] := by decide
      rw [hp]
      exact hend nocase (t.drop k) [] 0 rfl

/-- The escapes `\*` and `\` on `*a`. -/
theorem C17_backslash_escape_witness :
    (42 : Nat) ≠ 0 ∧
    Exp_StringCaseMatch asciiLower (cp "*a") (92 :: 42 :: cp "a") false = (2, 0) ∧
    Exp_StringCaseMatch2 asciiLower (42 :: cp "a") (92 :: 42 :: cp "a") false
      = addMatched 1 (Exp_StringCaseMatch2 asciiLower (cp "a") (cp "a") false) ∧
    (∀ d, d ≠ 42 → Exp_StringCaseMatch2 asciiLower (d :: cp "a") (92 :: 42 :: cp "a") false = -1) ∧
    (∀ (nocase : Bool) (t : List Nat), Exp_StringCaseMatch asciiLower t [92] nocase = (-1, 0)) :=
  ⟨by decide, by decide,
    (C17_backslash_escape asciiLower 42 (cp "a") (cp "a") (by decide)).1,
    (C17_backslash_escape asciiLower 42 (cp "a") (cp "a") (by decide)).2.1,
    (C17_backslash_escape asciiLower 42 (cp "a") (cp "a") (by decide)).2.2.2⟩

/-- C18 (termination).  `Exp_StringCaseMatch2` terminates, and so does the
search, which calls it once for each start offset: run with more iterations
than the pattern has characters and with a nesting of the recursive calls of
the `*` branch as deep as the string is long, the loop returns its result
without reaching what lies beyond the budgets, every iteration and call being
on a shorter pattern and every recursive call on a proper suffix of the
string.  The backward scan, the backward cruise and the member loop of a
class leave as well, within `tail - string + 1`, `tail - string + 2` and
`length pattern + 1` iterations. -/
theorem C18_termination (lw : Nat → Nat) (nocase : Bool)
    (beyond : List Nat → List Nat → Int → Int) (fuel depth : Nat) (s p : List Nat) (m : Int)
    (hf : p.length < fuel) (hd : s.length ≤ depth) :
    Exp_StringCaseMatch2Depth lw nocase beyond fuel depth s p m
      = Exp_StringCaseMatch2Loop lw nocase s p m ∧
    (∀ (x : Nat) (recurse : List Nat → Int) (mtch : Int) (past : Int → Int) (n : Nat)
        (tail : Int), tail.toNat < n →
      (starScanBody lw nocase s x recurse mtch)^[n] past tail
        = starScan lw nocase s x recurse mtch tail) ∧
    (∀ (x : Nat) (past : Int → Int) (n : Nat) (tail : Int), (tail + 1).toNat < n →
      (cruiseBody lw nocase s x)^[n] past tail = cruise lw nocase s x tail) ∧
    (∀ (ch : Nat) (past : List Nat → Option (List Nat)) (n : Nat) (q : List Nat),
      q.length < n → (classScanBody lw nocase ch)^[n] past q = classScan lw nocase ch q) :=
  ⟨depth_enough lw nocase beyond fuel depth s p m hf hd,
    fun x recurse mtch past n tail h => starScan_iterate lw nocase s x recurse mtch past n tail h,
    fun x past n tail h => cruise_iterate lw nocase s x past n tail h,
    fun ch past n q h => classScan_iterate lw nocase ch past n q h⟩

/-- The pattern `a*b*` on `aXbXb`, run with 5 iterations and a nesting of 5
calls, whatever lies beyond; with no nested call allowed the run does reach
what lies beyond. -/
theorem C18_termination_witness :
    (cp "a*b*").length < 5 ∧ (cp "aXbXb").length ≤ 5 ∧
    Exp_StringCaseMatch2Depth asciiLower false (fun _ _ _ => 77) 5 5 (cp "aXbXb") (cp "a*b*") 0
      = Exp_StringCaseMatch2Loop asciiLower false (cp "aXbXb") (cp "a*b*") 0 ∧
    Exp_StringCaseMatch2Depth asciiLower false (fun _ _ _ => 77) 5 5 (cp "aXbXb") (cp "a*b*") 0
      = 5 ∧
    Exp_StringCaseMatch2Depth asciiLower false (fun _ _ _ => 77) 5 0 (cp "aXbXb") (cp "a*b*") 0
      = 81 :=
  ⟨by decide, by decide,
    (C18_termination asciiLower false (fun _ _ _ => 77) 5 5 (cp "aXbXb") (cp "a*b*") 0
      (by decide) (by decide)).1,
    by decide, by decide⟩

/-- C19 (a star directly followed by the final end anchor never matches).
For every string, with or without `$` characters, and both case settings
(`Tcl_UniCharToLower` keeping `$` and the code point 0):
`Exp_StringCaseMatch2(s, "*$")` fails, and so does the search. -/
theorem C19_star_dollar (lw : Nat → Nat) (nocase : Bool)
    (hlw : nocase = true → lw 36 = 36 ∧ lw 0 = 0) (s : List Nat) :
    Exp_StringCaseMatch2 lw s [42, 36] nocase = -1 ∧
    Exp_StringCaseMatch lw s [42, 36] nocase = (-1, 0) := by
  have hcm : ∀ u : List Nat, Exp_StringCaseMatch2 lw u [42, 36] nocase = -1 := by
    intro u
    have hsk : skipStars [36] = [36] := rfl
    have hq0 : peek (skipStars [36]) ≠ 0 := by decide
    rcases star_tried lw nocase u [36] hq0 with ⟨hr, _⟩ | ⟨T, _, _, hT3, hT4, _⟩
    · exact hr
    · exfalso
      rw [hsk] at hT3 hT4
      have hp : (if nocase = true then lw (peek [36]) else peek [36]) = 36 := by
        cases nocase with
        | false => rfl
        | true => exact (hlw rfl).1
      rw [hp] at hT3
      rw [match2_dollar lw nocase _ [] rfl, peek_drop] at hT4
      have hz : u.getD T 0 = 0 := by
        by_contra hne
        rw [if_neg hne] at hT4
        exact hT4 rfl
      apply hT3
      unfold cruiseSkips
      rw [hz]
      refine ⟨by decide, by decide, ?_⟩
      intro hn
      rw [(hlw hn).2]
      decide
  refine ⟨hcm s, ?_⟩
  rw [search_star, hcm s]

/-- The pattern `*$` on `a$b$`, with the case folded. -/
theorem C19_star_dollar_witness :
    (true = true → asciiLower 36 = 36 ∧ asciiLower 0 = 0) ∧
    Exp_StringCaseMatch2 asciiLower (cp "a$b$") [42, 36] true = -1 ∧
    Exp_StringCaseMatch asciiLower (cp "a$b$") [42, 36] true = (-1, 0) :=
  ⟨by decide, C19_star_dollar asciiLower true (by decide) (cp "a$b$")⟩

/-- C20 (matching is monotone under input growth).  For strings `s` and `t`
without the code point 0, a pattern without the character `$` and both case
settings: when the search in `s` matches, the search in `s ++ t` matches, at a
start offset that is not greater. -/
theorem C20_monotone_growth (lw : Nat → Nat) (nocase : Bool) (s t p : List Nat)
    (hs : ∀ c ∈ s, c ≠ 0) (ht : ∀ c ∈ t, c ≠ 0) (hp : ∀ x ∈ p, x ≠ 36)
    (h : (Exp_StringCaseMatch lw s p nocase).1 ≠ -1) :
    (Exp_StringCaseMatch lw (s ++ t) p nocase).1 ≠ -1 ∧
    (Exp_StringCaseMatch lw (s ++ t) p nocase).2 ≤ (Exp_StringCaseMatch lw s p nocase).2 := by
  by_cases h94 : peek p = 94
  · obtain ⟨x, q, hxq, _⟩ := peek_ne_zero_cons (l := p) (by rw [h94]; decide)
    subst hxq
    have hx : x = 94 := h94
    subst hx
    rw [search_caret] at h ⊢
    rw [search_caret]
    exact ⟨match2_mono lw nocase q (fun y hy => hp y (by simp [hy])) s t h, le_refl _⟩
  by_cases h42 : peek p = 42
  · obtain ⟨x, q, hxq, _⟩ := peek_ne_zero_cons (l := p) (by rw [h42]; decide)
    subst hxq
    have hx : x = 42 := h42
    subst hx
    rw [search_star] at h ⊢
    rw [search_star]
    exact ⟨match2_mono lw nocase (42 :: q) hp s t h, le_refl _⟩
  have hst : ∀ c ∈ s ++ t, c ≠ 0 := by
    intro c hc
    rcases List.mem_append.1 hc with h1 | h1
    · exact hs c h1
    · exact ht c h1
  have hd : (if decide (peek p = 94) = true then p.tail else p) = p := by simp [h94]
  rcases search_cases lw nocase s p with h1 | ⟨k, hk1, hk2, hk3⟩
  · rw [h1] at h; exact absurd rfl h
  · rw [hd] at hk2 hk3
    have hk : k ≤ s.length := by omega
    have hgrow : Exp_StringCaseMatch2 lw ((s ++ t).drop k) p nocase ≠ -1 := by
      rw [List.drop_append_of_le_length hk]
      exact match2_mono lw nocase p hp (s.drop k) t hk2
    rcases search_spec lw nocase (s ++ t) p (no_zero_peek hst) h94 h42 with
      ⟨_, hall⟩ | ⟨k0, _, hk02, hk03, hk04⟩
    · exfalso
      apply hgrow
      apply hall
      rw [List.length_append]
      omega
    · rw [hk04, hk3]
      refine ⟨hk02, ?_⟩
      show k0 ≤ k
      by_contra hgt
      exact hgrow (hk03 k (by omega))

/-- The pattern `b*c` matches `abxcb` at offset 1 and still matches at offset 1
when `cc` is appended. -/
theorem C20_monotone_growth_witness :
    (∀ c ∈ cp "abxcb", c ≠ 0) ∧ (∀ c ∈ cp "cc", c ≠ 0) ∧ (∀ x ∈ cp "b*c", x ≠ 36) ∧
    (Exp_StringCaseMatch asciiLower (cp "abxcb") (cp "b*c") false).1 ≠ -1 ∧
    ((Exp_StringCaseMatch asciiLower (cp "abxcb" ++ cp "cc") (cp "b*c") false).1 ≠ -1 ∧
      (Exp_StringCaseMatch asciiLower (cp "abxcb" ++ cp "cc") (cp "b*c") false).2
        ≤ (Exp_StringCaseMatch asciiLower (cp "abxcb") (cp "b*c") false).2) :=
  ⟨by decide, by decide, by decide, by decide,
    C20_monotone_growth asciiLower false (cp "abxcb") (cp "cc") (cp "b*c") (by decide) (by decide)
      (by decide) (by decide)⟩

end ExpGlob
